import Mathlib

/-!
Verification development for the gameharmony ranking aggregator.

The definitions below are a shallow embedding of the Rust sources:
  * services/text_utils.rs   (TitleNormalizer::normalize)
  * services/merging.rs      (prepare_game_data, perform_merge, merge_games)
  * services/scoring.rs      (calculate_harmony_score)
  * processor/processor.rs   (calculate_score)
  * services/matching.rs     (AppIndex::build_index, find_steam_id, match_games)
  * infrastructure/storage/fs_store.rs (read_json_file) and the cache-checking
    stage wrappers in services/game_service.rs

Strings are modeled as lists of characters; the Unicode-aware pieces of the
source (the regex classes \w, \s, \d, to_lowercase, NFKD) are modeled on the
ASCII fragment: \w is letter/digit/underscore, \s the ASCII whitespace
characters, lowercasing is ASCII lowercasing and NFKD is the identity (every
ASCII character is its own canonical decomposition).  Rust f64 similarity
scores are modeled as exact rationals.
-/

namespace Gameharmony

/-- ASCII fragment of the regex class `\s`. -/
def isWs (c : Char) : Bool :=
  c == ' ' || c == '\t' || c == '\n' || c == '\r' || c == (Char.ofNat 11) || c == (Char.ofNat 12)

/-- The regex class `\d`. -/
def isDigitC (c : Char) : Bool := c.isDigit

/-- ASCII fragment of the regex word class `\w` (letters, digits, underscore). -/
def isWordC (c : Char) : Bool := c.isAlpha || c.isDigit || c == '_'

/-- ASCII lowercasing, the fragment of Rust `str::to_lowercase` modeled here. -/
def toLowerC (c : Char) : Char := c.toLower

/-- The apostrophe character (U+0027), written via its code to keep source clean. -/
def apoChar : Char := Char.ofNat 39

/-- Word boundary `\b` between the last consumed character (a word character in
all uses below) and the remaining input: it holds at end of input or before a
non-word character. -/
def rightBoundary (last : Char) (rest : List Char) : Bool :=
  match rest with
  | [] => isWordC last
  | r :: _ => isWordC last != isWordC r

/-- Word boundary `\b` before a word character given the previous character
(`none` at the start of the string). -/
def leftOkPrev (prev : Option Char) : Bool :=
  match prev with
  | none => true
  | some p => !isWordC p

/-- One pass of `Regex::replace_all`: scan left to right; at each position try
the matcher; a match consumes `k ≥ 1` characters of the original string and is
replaced; scanning resumes after the matched region with the last consumed
original character as left context (matches are non-overlapping and located in
the original string, exactly as in the regex crate).  The matcher receives the
previous original character and the current suffix and returns
`(replacement, consumed)` on success. -/
def replaceScanAux (m : Option Char → List Char → Option (List Char × Nat)) :
    Nat → Option Char → List Char → List Char
  | 0, _, l => l
  | _ + 1, _, [] => []
  | fuel + 1, prev, c :: cs =>
    match m prev (c :: cs) with
    | some (r, k) =>
        r ++ replaceScanAux m fuel ((List.take k (c :: cs)).getLast?) (List.drop (k - 1) cs)
    | none => c :: replaceScanAux m fuel (some c) cs

/-- `Regex::replace_all` over a whole string (every matcher below consumes at
least one character per match, so fuel equal to the length suffices). -/
def replaceScan (m : Option Char → List Char → Option (List Char × Nat))
    (l : List Char) : List Char :=
  replaceScanAux m l.length none l

/-- Strip a literal from the front of the input, returning the rest. -/
def stripLit : List Char → List Char → Option (List Char)
  | [], l => some l
  | _ :: _, [] => none
  | p :: ps, c :: cs => if c == p then stripLit ps cs else none

/-- Case-insensitive variant of `stripLit` (for the `(?i)` roman patterns). -/
def stripLitCI : List Char → List Char → Option (List Char)
  | [], l => some l
  | _ :: _, [] => none
  | p :: ps, c :: cs => if toLowerC c == toLowerC p then stripLitCI ps cs else none

/-- Matcher for the year regex `\s*(?:\(?\d{4}\)?)\b` (replacement is empty).
`\s*` is greedy and backtracking over it can never succeed (a shorter space run
leaves a whitespace character where `\(?\d` is required); the greedy `\)?`
consumes a closing parenthesis only when the boundary after it holds, i.e. when
a word character follows; otherwise the boundary between the fourth digit and
the parenthesis (or a following non-word character, or end of input) must
hold. -/
def yearMatch (_prev : Option Char) (l : List Char) : Option (List Char × Nat) :=
  let sp := l.takeWhile isWs
  let rest := l.dropWhile isWs
  let pr : Nat × List Char :=
    match rest with
    | '(' :: t => (1, t)
    | _ => (0, rest)
  match pr.2 with
  | d1 :: d2 :: d3 :: d4 :: tail =>
    if isDigitC d1 && isDigitC d2 && isDigitC d3 && isDigitC d4 then
      match tail with
      | ')' :: t2 =>
        match t2 with
        | c :: _ =>
          if isWordC c then some ([], sp.length + pr.1 + 5)
          else some ([], sp.length + pr.1 + 4)
        | [] => some ([], sp.length + pr.1 + 4)
      | c :: _ => if isWordC c then none else some ([], sp.length + pr.1 + 4)
      | [] => some ([], sp.length + pr.1 + 4)
    else none
  | _ => none

/-- Matcher for the status patterns `\s*\(early access\)`, `\s*early access`
and `\s*\(full release\)`: greedy whitespace followed by the literal,
replacement empty. -/
def statusMatch (lit : List Char) (_prev : Option Char) (l : List Char) :
    Option (List Char × Nat) :=
  let sp := l.takeWhile isWs
  let rest := l.dropWhile isWs
  match stripLit lit rest with
  | some _ => some ([], sp.length + lit.length)
  | none => none

/-- Matcher for the possessive regex `(?:'\s*s|\s+s)\b` with replacement `s`.
The alternation is tried left to right; within each branch the greedy
whitespace run admits no useful backtracking. -/
def possessiveMatch (_prev : Option Char) (l : List Char) : Option (List Char × Nat) :=
  match l with
  | [] => none
  | c :: t =>
    if c == apoChar then
      let sp := t.takeWhile isWs
      let rest := t.dropWhile isWs
      match rest with
      | 's' :: t2 => if rightBoundary 's' t2 then some (['s'], 1 + sp.length + 1) else none
      | _ => none
    else if isWs c then
      let sp := l.takeWhile isWs
      let rest := l.dropWhile isWs
      match rest with
      | 's' :: t2 => if rightBoundary 's' t2 then some (['s'], sp.length + 1) else none
      | _ => none
    else none

/-- Matcher for `(\d+)` with replacement `" $1 "`: a greedy maximal digit run,
replaced by itself surrounded by single spaces. -/
def numberSpaceMatch (_prev : Option Char) (l : List Char) : Option (List Char × Nat) :=
  match l with
  | [] => none
  | c :: _ =>
    if isDigitC c then
      let run := l.takeWhile isDigitC
      some (' ' :: (run ++ [' ']), run.length)
    else none

/-- Matcher for the compound fixups `\bhalf[\s-]life\b` and
`\bcounter[\s-]strike\b`: both words in lowercase joined by one whitespace
character or hyphen, delimited by word boundaries. -/
def compoundMatch (w1 w2 repl : List Char) (prev : Option Char) (l : List Char) :
    Option (List Char × Nat) :=
  if leftOkPrev prev then
    match stripLit w1 l with
    | some rest =>
      match rest with
      | [] => none
      | sep :: rest2 =>
        if isWs sep || sep == '-' then
          match stripLit w2 rest2 with
          | some rest3 =>
            match rest3 with
            | [] => some (repl, w1.length + 1 + w2.length)
            | c :: _ =>
              if isWordC c then none else some (repl, w1.length + 1 + w2.length)
          | none => none
        else none
    | none => none
  else none

/-- Matcher for a roman-numeral pattern `(?i)\bWORD\b` with a digit
replacement. -/
def romanWordMatch (w repl : List Char) (prev : Option Char) (l : List Char) :
    Option (List Char × Nat) :=
  if leftOkPrev prev then
    match stripLitCI w l with
    | some rest =>
      match rest with
      | [] => some (repl, w.length)
      | c :: _ => if isWordC c then none else some (repl, w.length)
    | none => none
  else none

/-- Matcher for a plain substring replacement (`str::replace`): the literal
pattern at the current position, no boundary conditions. -/
def substMatch (pat repl : List Char) (_prev : Option Char) (l : List Char) :
    Option (List Char × Nat) :=
  match stripLit pat l with
  | some _ => some (repl, pat.length)
  | none => none

/-- Accumulator recursion behind `splitWs`; `acc` holds the characters of the
current word in reverse. -/
def splitWsAux : List Char → List Char → List (List Char)
  | [], acc => if acc.isEmpty then [] else [acc.reverse]
  | c :: cs, acc =>
    if isWs c then
      if acc.isEmpty then splitWsAux cs [] else acc.reverse :: splitWsAux cs []
    else splitWsAux cs (c :: acc)

/-- `str::split_whitespace`: the maximal whitespace-free words, in order. -/
def splitWs (l : List Char) : List (List Char) := splitWsAux l []

/-- Join words with single spaces (`Vec::join(" ")`). -/
def joinWords : List (List Char) → List Char
  | [] => []
  | [w] => w
  | w :: ws => w ++ ' ' :: joinWords ws

/-- `str::trim` (whitespace from both ends). -/
def trimC (l : List Char) : List Char :=
  ((l.dropWhile isWs).reverse.dropWhile isWs).reverse

/-- Unicode NFKD; on the ASCII fragment modeled here every character is its own
canonical decomposition, so it is the identity. -/
def nfkd (l : List Char) : List Char := l

/-- The status patterns of `TitleNormalizer::normalize`, in source order. -/
def statusLits : List (List Char) :=
  [("(early access)").data, ("early access").data, ("(full release)").data]

/-- The roman-numeral table of `TitleNormalizer::normalize`, in source order
(XXV down to I). -/
def romanTable : List (List Char × List Char) :=
  [("xxv".data, "25".data), ("xxiv".data, "24".data), ("xxiii".data, "23".data),
   ("xxii".data, "22".data), ("xxi".data, "21".data), ("xx".data, "20".data),
   ("xix".data, "19".data), ("xviii".data, "18".data), ("xvii".data, "17".data),
   ("xvi".data, "16".data), ("xv".data, "15".data), ("xiv".data, "14".data),
   ("xiii".data, "13".data), ("xii".data, "12".data), ("xi".data, "11".data),
   ("x".data, "10".data), ("ix".data, "9".data), ("viii".data, "8".data),
   ("vii".data, "7".data), ("vi".data, "6".data), ("v".data, "5".data),
   ("iv".data, "4".data), ("iii".data, "3".data), ("ii".data, "2".data),
   ("i".data, "1".data)]

/-- The word-number table (`" zero "` … `" ten "`), in source order. -/
def wordNumTable : List (List Char × List Char) :=
  [(" zero ".data, " 0 ".data), (" one ".data, " 1 ".data), (" two ".data, " 2 ".data),
   (" three ".data, " 3 ".data), (" four ".data, " 4 ".data), (" five ".data, " 5 ".data),
   (" six ".data, " 6 ".data), (" seven ".data, " 7 ".data), (" eight ".data, " 8 ".data),
   (" nine ".data, " 9 ".data), (" ten ".data, " 10 ".data)]

/-- The stop-word list of `TitleNormalizer::normalize`. -/
def stopWords : List String :=
  ["the", "and", "of", "edition", "remastered", "definitive", "part", "collection",
   "remake", "reincarnation", "rebirth", "ultra", "deluxe", "ultimate", "complete",
   "enhanced", "goty", "expanded", "final", "cut", "directors"]

/-- `TitleNormalizer::normalize` on character lists: the full pipeline of
text_utils.rs in source order. -/
def normalizeL (l : List Char) : List Char :=
  let t0 := l.map toLowerC
  let t1 := replaceScan yearMatch t0
  let t2 := t1.map toLowerC
  let t3 := statusLits.foldl (fun s lit => replaceScan (statusMatch lit) s) t2
  let t4 := replaceScan possessiveMatch t3
  let t5 := t4.filter (fun c => isWordC c || isWs c || c == '-')
  let t6 := replaceScan numberSpaceMatch t5
  let t7 := replaceScan (compoundMatch ("half").data ("life").data ("halflife").data) t6
  let t7b := replaceScan
    (compoundMatch ("counter").data ("strike").data ("counterstrike").data) t7
  let t8 := romanTable.foldl (fun s p => replaceScan (romanWordMatch p.1 p.2) s) t7b
  let t9 := wordNumTable.foldl (fun s p => replaceScan (substMatch p.1 p.2) s) t8
  let t10 := t9.filter (fun c => isWordC c || isWs c)
  let ws := (splitWs t10).filter (fun w => !(stopWords.contains (String.mk (w.map toLowerC))))
  trimC (nfkd (joinWords ws))

/-- `TitleNormalizer::normalize`. -/
def normalize (s : String) : String := String.mk (normalizeL s.data)

/-! ## Merging (services/merging.rs) -/

/-- A scraped entry of a website ranking (services/scraping.rs `RankedGame`):
name and 1-based rank. -/
structure RankedGame where
  name : String
  rank : Nat
  deriving DecidableEq

/-- One website's scraped ranking list (services/scraping.rs `WebsiteGames`). -/
structure WebsiteGames where
  source : String
  games : List RankedGame
  deriving DecidableEq

/-- `MergedGame` of services/merging.rs; the `HashMap<String, u64>` of rankings
is modeled as an association list with insert-overwrite semantics. -/
structure MergedGame where
  normalized_name : String
  original_names : List String
  rankings : List (String × Nat)
  deriving DecidableEq

/-- The per-item record built by `prepare_game_data`. -/
structure GameData where
  original_name : String
  normalized_title : String
  numeric_tokens : List String
  non_numeric_title : String
  rank : Nat
  source : String
  deriving DecidableEq

/-- `HashMap::insert`: overwrite the value under an existing key, otherwise add
the binding. -/
def insertAssoc {α : Type} [DecidableEq α] {β : Type} (m : List (α × β)) (k : α) (v : β) :
    List (α × β) :=
  if m.any (fun p => p.1 = k) then m.map (fun p => if p.1 = k then (k, v) else p)
  else m ++ [(k, v)]

/-- `HashMap::get`. -/
def lookupAssoc {α : Type} [DecidableEq α] {β : Type} (m : List (α × β)) (k : α) :
    Option β :=
  (m.find? (fun p => p.1 = k)).map (fun p => p.2)

/-- Matcher for `\b\d+\b` (the `numbers_re` of prepare_game_data) with empty
replacement: a maximal digit run delimited by word boundaries on both sides.
A digit run adjacent to a letter or underscore admits no match anywhere inside
it (a shorter greedy run ends before another digit, where `\b` fails). -/
def numTokenMatch (prev : Option Char) (l : List Char) : Option (List Char × Nat) :=
  match l with
  | [] => none
  | c :: _ =>
    if isDigitC c && leftOkPrev prev then
      let run := l.takeWhile isDigitC
      let rest := l.dropWhile isDigitC
      match rest with
      | [] => some ([], run.length)
      | r :: _ => if isWordC r then none else some ([], run.length)
    else none

/-- Accumulator scan behind `numericTokens`: `prevWord` records whether the
previous character is a word character (digit runs are scanned as wholes, and
the character before any later position inside the input is then a digit, i.e.
a word character).  Fuel equal to the input length suffices since every step
consumes at least one character. -/
def numericTokensAux : Nat → Bool → List Char → List String
  | 0, _, _ => []
  | _ + 1, _, [] => []
  | fuel + 1, prevWord, c :: cs =>
    if isDigitC c then
      let run := c :: cs.takeWhile isDigitC
      let rest := cs.dropWhile isDigitC
      let ok := !prevWord &&
        (match rest with
         | [] => true
         | r :: _ => !isWordC r)
      (if ok then [String.mk run] else []) ++ numericTokensAux fuel true rest
    else numericTokensAux fuel (isWordC c) cs

/-- `numbers_re.find_iter(..)` of prepare_game_data: the `\b\d+\b` matches of a
normalized title, in order. -/
def numericTokens (l : List Char) : List String := numericTokensAux l.length false l

/-- The `non_numeric_title` computation of prepare_game_data: remove every
`\b\d+\b` match, then split on whitespace and re-join with single spaces. -/
def nonNumericTitle (normalized : List Char) : String :=
  String.mk (joinWords (splitWs (replaceScan numTokenMatch normalized)))

/-- `MergingService::prepare_game_data`; the `normalize_source` lookup over the
scraper configuration is abstracted as the function argument `nsrc`. -/
def prepare_game_data (nsrc : String → String) (website_games : List WebsiteGames) :
    List GameData :=
  (website_games.map (fun w =>
    let source := nsrc w.source
    w.games.map (fun g =>
      let nt := normalizeL g.name.data
      { original_name := g.name
        normalized_title := String.mk nt
        numeric_tokens := numericTokens nt
        non_numeric_title := nonNumericTitle nt
        rank := g.rank
        source := source }))).flatten

/-- The separator-and-element tail of a `join("_")`. -/
def sepRest : List (List Char) → List Char
  | [] => []
  | u :: us => '_' :: (u ++ sepRest us)

/-- `Vec::join("_")` on character lists. -/
def sepJoin : List (List Char) → List Char
  | [] => []
  | t :: ts => t ++ sepRest ts

/-- `numeric_tokens.join("_")`, the variant key of perform_merge. -/
def joinTokens (ts : List String) : String := String.mk (sepJoin (ts.map String.data))

/-- `MergingService::update_existing_game`. -/
def update_existing_game (existing : MergedGame) (g : GameData) : MergedGame :=
  { existing with
    original_names :=
      if existing.original_names.contains g.original_name then existing.original_names
      else existing.original_names ++ [g.original_name]
    rankings := insertAssoc existing.rankings g.source g.rank }

/-- `MergingService::create_new_merged_game` (the freshly inserted value). -/
def create_new_merged_game (g : GameData) : MergedGame :=
  { normalized_name := g.normalized_title
    original_names := [g.original_name]
    rankings := [(g.source, g.rank)] }

/-- The outer grouping of perform_merge
(`title_groups.entry(non_numeric_title).or_default().push(game)`), as an
association list in first-seen key order (the HashMap's iteration order only
permutes the output list). -/
def groupByTitle (games : List GameData) : List (String × List GameData) :=
  games.foldl (fun acc g =>
    if acc.any (fun p => p.1 = g.non_numeric_title) then
      acc.map (fun p => if p.1 = g.non_numeric_title then (p.1, p.2 ++ [g]) else p)
    else acc ++ [(g.non_numeric_title, [g])]) []

/-- The inner fold of perform_merge over one title group, keyed by
`numeric_tokens.join("_")`. -/
def mergeGroupStep (acc : List (String × MergedGame)) (g : GameData) :
    List (String × MergedGame) :=
  let key := joinTokens g.numeric_tokens
  if acc.any (fun p => p.1 = key) then
    acc.map (fun p => if p.1 = key then (p.1, update_existing_game p.2 g) else p)
  else acc ++ [(key, create_new_merged_game g)]

/-- One title group folded into its merged games. -/
def mergeGroup (group : List GameData) : List (String × MergedGame) :=
  group.foldl mergeGroupStep []

/-- `MergingService::perform_merge`. -/
def perform_merge (games_data : List GameData) : List MergedGame :=
  ((groupByTitle games_data).map (fun p => (mergeGroup p.2).map (fun q => q.2))).flatten

/-- The pure computation of `MergingService::merge_games` (the cache contract
around it is modeled separately with the fs_store embedding). -/
def merge_games (nsrc : String → String) (website_games : List WebsiteGames) :
    List MergedGame :=
  perform_merge (prepare_game_data nsrc website_games)

/-! ## Scoring (services/scoring.rs and processor/processor.rs) -/

/-- `calculate_harmony_score` of services/scoring.rs.  The
`HashMap<String, i32>` of rankings is modeled as an association list (summing
over its values is order-independent, so the HashMap iteration order is
irrelevant); i32 arithmetic is modeled on unbounded integers.  The quotient is
nonnegative over nonpositive-free ranks and Rust and Lean integer division
agree on nonnegative operands. -/
def calculate_harmony_score (rankings : List (String × Int)) : Int :=
  if rankings.isEmpty then 0
  else
    let position_score : Int :=
      (rankings.map (fun p => if p.2 ≤ 100 then 101 - p.2 else 0)).sum
    let appearance_multiplier : Int := 100 + ((25 * (rankings.length - 1) : Nat) : Int)
    position_score * appearance_multiplier / 100

/-- `calculate_score` of processor/processor.rs: ranks are `usize`, and the
summed positional credit is divided by the source count before the
appearance multiplier is applied. -/
def calculate_score (rankings : List (String × Nat)) : Int :=
  if rankings.isEmpty then 0
  else
    let position_score : Int :=
      ((rankings.map (fun p =>
        if p.2 ≤ 100 then ((101 - p.2 : Nat) : Int) else 0)).sum) / (rankings.length : Int)
    let appearance_multiplier : Int := 100 + ((25 * (rankings.length - 1) : Nat) : Int)
    position_score * appearance_multiplier / 100

/-! ## Matching (services/matching.rs) -/

/-- A catalog entry (`SteamApp` of infrastructure). -/
structure SteamApp where
  appid : Nat
  name : String
  deriving DecidableEq

/-- `MatchingConfig` of services/matching.rs; the similarity threshold (an f64
in the source) is modeled as an exact rational, and the DLC regex is abstracted
as a predicate on names. -/
structure MatchingConfig where
  similarity_threshold : ℚ
  dlc_matches : String → Bool
  filter_dlc : Bool

/-- The `Default` impl of `MatchingConfig`: threshold 0.9, DLC filtering on
(the concrete regex is irrelevant to the claims below and is abstracted as the
constantly-false predicate here). -/
def MatchingConfig.default : MatchingConfig :=
  { similarity_threshold := 9 / 10, dlc_matches := fun _ => false, filter_dlc := true }

/-- The inner loop of strsim's `generic_levenshtein` row DP: walk the second
string and the cache row together; returns the updated cache row and the final
`result`. -/
def levInner (aElem : Char) : List Char → List Nat → Nat → Nat → (List Nat × Nat)
  | [], _, _, result => ([], result)
  | _ :: _, [], _, result => ([], result)
  | b :: bs, cOld :: cache, db, result =>
    let cost : Nat := if aElem = b then 0 else 1
    let dA := db + cost
    let dB := cOld
    let res := min (result + 1) (min dA (dB + 1))
    let next := levInner aElem bs cache dB res
    (res :: next.1, next.2)

/-- The outer loop of strsim's `generic_levenshtein`: walk the first string,
tracking the row index `i`, the cache row and the running result. -/
def levOuter (b : List Char) : List Char → Nat → List Nat → Nat → Nat
  | [], _, _, result => result
  | a :: as_, i, cache, _ =>
    let step := levInner a b cache i (i + 1)
    levOuter b as_ (i + 1) step.1 step.2

/-- strsim's `levenshtein` (the row-DP `generic_levenshtein`). -/
def levenshtein (a b : List Char) : Nat :=
  levOuter b a 0 (List.range' 1 b.length) b.length

example : levenshtein "kitten".data "sitting".data = 3 := by decide
example : levenshtein "".data "abc".data = 3 := by decide
example : levenshtein "abc".data "".data = 3 := by decide
example : levenshtein "abc".data "abc".data = 0 := by decide

/-- strsim's `normalized_levenshtein`, with f64 arithmetic modeled as exact
rationals: `1 - distance / max(|a|, |b|)`, and `1` when both strings are
empty. -/
def normalized_levenshtein (a b : List Char) : ℚ :=
  if a.isEmpty && b.isEmpty then 1
  else 1 - (levenshtein a b : ℚ) / ((max a.length b.length : Nat) : ℚ)

/-- Evaluation helper: `normalized_levenshtein` at arguments whose distance and
maximal length are known. -/
theorem normalized_levenshtein_eval (a b : List Char) (d m : Nat)
    (hne : (a.isEmpty && b.isEmpty) = false) (hd : levenshtein a b = d)
    (hm : max a.length b.length = m) :
    normalized_levenshtein a b = 1 - (d : ℚ) / (m : ℚ) := by
  simp [normalized_levenshtein, hne, hd, hm]

/-- The in-memory index of `MatchingService` (`AppIndex`): the exact name map
and the first-character buckets, both modeled as association lists. -/
structure AppIndex where
  name_index : List (String × SteamApp)
  letter_index : List (Char × List (SteamApp × String))

/-- The pre-initialized letter buckets of `build_index`: one empty bucket per
lowercase ASCII letter plus the bucket keyed by the character `0`. -/
def initialLetterIndex : List (Char × List (SteamApp × String)) :=
  ((List.range 26).map (fun i => (Char.ofNat ('a'.toNat + i), ([] : List (SteamApp × String)))))
    ++ [('0', [])]

/-- Step 1 of `AppIndex::build_index`: filtering by the DLC pattern and
normalizing every surviving name (the rayon parallel map preserves order and
has no shared state). -/
def processedApps (steam_apps : List SteamApp) (cfg : MatchingConfig) :
    List (SteamApp × String) :=
  (steam_apps.filter (fun app =>
    if cfg.filter_dlc then !(cfg.dlc_matches app.name) else true)).map
    (fun app => (app, normalize app.name))

/-- Step 2 of `AppIndex::build_index`: insert each processed app into the
exact name map (last write wins) and push it onto the bucket keyed by the
first character of its normalized title, when such a bucket exists. -/
def insertApp (idx : AppIndex) (p : SteamApp × String) : AppIndex :=
  let ni := insertAssoc idx.name_index p.2 p.1
  let li :=
    match p.2.data with
    | [] => idx.letter_index
    | c :: _ =>
      if idx.letter_index.any (fun q => q.1 = c) then
        idx.letter_index.map (fun q => if q.1 = c then (q.1, q.2 ++ [p]) else q)
      else idx.letter_index
  { name_index := ni, letter_index := li }

/-- The final sorting pass of `build_index` (`apps.sort_by(|(_, a), (_, b)|
a.cmp(b))`): each bucket ordered by normalized title. -/
def sortBucket (b : List (SteamApp × String)) : List (SteamApp × String) :=
  b.mergeSort (fun x y => x.2 ≤ y.2)

/-- `AppIndex::build_index`. -/
def build_index (steam_apps : List SteamApp) (cfg : MatchingConfig) : AppIndex :=
  let idx := (processedApps steam_apps cfg).foldl insertApp
    { name_index := [], letter_index := initialLetterIndex }
  { idx with letter_index := idx.letter_index.map (fun q => (q.1, sortBucket q.2)) }

/-- Rust's `Iterator::max_by` on (candidate, similarity) pairs: the fold keeps
the accumulator only when it compares strictly greater, so the last of several
equal maxima wins (similarities are rationals here, so `partial_cmp` is total
and the `unwrap_or(Equal)` branch of the source is unreachable). -/
def maxBySim (l : List (SteamApp × ℚ)) : Option (SteamApp × ℚ) :=
  l.foldl (fun acc x =>
    match acc with
    | none => some x
    | some m => if m.2 > x.2 then some m else some x) none

/-- `MatchingService::find_steam_id`: exact lookup of the normalized query,
then bucketed fuzzy matching filtered by strict threshold exceedance.  The
source returns `app.appid.to_string()`; the id is kept as a number here. -/
def find_steam_id (idx : AppIndex) (cfg : MatchingConfig) (game_name : String) :
    Option Nat :=
  let normalized_search := normalize game_name
  match lookupAssoc idx.name_index normalized_search with
  | some app => some app.appid
  | none =>
    match normalized_search.data with
    | [] => none
    | first_char :: _ =>
      match lookupAssoc idx.letter_index first_char with
      | none => none
      | some candidates =>
        let scored := candidates.map (fun p =>
          (p.1, normalized_levenshtein normalized_search.data p.2.data))
        let kept := scored.filter (fun p => decide (p.2 > cfg.similarity_threshold))
        (maxBySim kept).map (fun p => p.1.appid)

/-! ## Cache contract (infrastructure/storage/fs_store.rs, services/game_service.rs) -/

/-- The persisted state of one cache file: `none` when the file is absent,
otherwise the file's content (a successful `fs::read_to_string`; an I/O read
failure is modeled by a deserializer that fails, both flow through `?`). -/
def CacheFile : Type := Option String

/-- `FileSystemStore::read_json_file`: an absent file yields `Ok(None)`; a
present file is deserialized, and a deserialization failure propagates as an
error through the `?` operator. -/
def read_json_file {T : Type} (file : Option String) (deser : String → Except String T) :
    Except String (Option T) :=
  match file with
  | none => Except.ok none
  | some content =>
    match deser content with
    | Except.ok v => Except.ok (some v)
    | Except.error e => Except.error e

/-- The cache-checking shape of `GameService::merge_games` (game_service.rs):
load the snapshot with `?` (so a load error aborts the stage), return the
cached value when present, otherwise recompute.  `skip_cache` is false here,
as in the claimed contract. -/
def merge_games_stage (load : Except String (Option (List MergedGame)))
    (recompute : List MergedGame) : Except String (List MergedGame) :=
  match load with
  | Except.error e => Except.error e
  | Except.ok (some games) => Except.ok games
  | Except.ok none => Except.ok recompute

/-! ## Spec-side notions (used to state the claims, not taken from the code) -/

/-- Modelled from the spec: the left-to-right sequence of maximal digit runs of
a string (the spec's numeric-token sequence, with no word-boundary
condition). -/
def maximalDigitRuns : Nat → List Char → List String
  | 0, _ => []
  | _ + 1, [] => []
  | fuel + 1, c :: cs =>
    if isDigitC c then
      String.mk (c :: cs.takeWhile isDigitC) :: maximalDigitRuns fuel (cs.dropWhile isDigitC)
    else maximalDigitRuns fuel cs

/-- Modelled from the spec: a normalized title with every maximal digit run
removed and whitespace collapsed (the spec's grouping key). -/
def specNonNumeric (fuel : Nat) : List Char → List Char
  | [] => []
  | c :: cs =>
    match fuel with
    | 0 => []
    | fuel' + 1 =>
      if isDigitC c then specNonNumeric fuel' (cs.dropWhile isDigitC)
      else c :: specNonNumeric fuel' cs

/-- The spec's numeric-token sequence of a raw title. -/
def specTokensOf (title : String) : List String :=
  maximalDigitRuns (normalizeL title.data).length (normalizeL title.data)

/-- The spec's grouping key of a raw title: normalized form, maximal digit runs
removed, whitespace collapsed. -/
def specGroupKeyOf (title : String) : String :=
  String.mk (joinWords (splitWs
    (specNonNumeric (normalizeL title.data).length (normalizeL title.data))))

example : normalize "Half-Life 2" = "halflife 2" := by decide
example : normalize "Half Life 2" = "halflife 2" := by decide
example : normalize "HalfLife 2" = "halflife 2" := by decide
example : normalize "Mass Effect II" = "mass effect 2" := by decide
example : normalize "Mass Effect 2" = "mass effect 2" := by decide
example : normalize "God of War (2018)" = "god war" := by decide
example : normalize "a-x" = "a10" := by decide
example : normalize "a10" = "a 10" := by decide
example : normalize "a-x 7" = "a10 7" := by decide
example : normalize "7 a-x" = "7 a10" := by decide
example : normalize "7 Wonders" = "7 wonders" := by decide
example : numericTokens ("a10 7").data = ["7"] := by decide
example : numericTokens ("7 a10").data = ["7"] := by decide
example : nonNumericTitle ("a10 7").data = "a10" := by decide
example : nonNumericTitle ("7 a10").data = "a10" := by decide
example :
    (merge_games id
      [⟨"A", [⟨"a-x 7", 1⟩]⟩, ⟨"B", [⟨"7 a-x", 2⟩]⟩]).length = 1 := by decide
example :
    (merge_games id
      [⟨"A", [⟨"Mass Effect 2", 1⟩]⟩, ⟨"B", [⟨"Mass Effect II", 3⟩]⟩]).length = 1 := by
  decide
example :
    (merge_games id
      [⟨"A", [⟨"Mass Effect 2", 1⟩]⟩, ⟨"B", [⟨"Mass Effect II", 3⟩]⟩,
       ⟨"C", [⟨"Mass Effect 3", 2⟩]⟩]).length = 2 := by decide

/-! ## Claim C2: well-formed normal forms -/

/-- The character inventory of a well-formed normal form: lowercase ASCII
letters, digits, and the single space. -/
def wfChars : List Char := ("abcdefghijklmnopqrstuvwxyz0123456789 ").data

/-- Does the list start with three digits? -/
def startsWith3Digits : List Char → Bool
  | a :: b :: c :: _ => isDigitC a && isDigitC b && isDigitC c
  | _ => false

/-- Does the list contain four consecutive digits (the shape the year regex
needs)? -/
def hasFourDigits : List Char → Bool
  | [] => false
  | c :: cs => (isDigitC c && startsWith3Digits cs) || hasFourDigits cs

/-- Adjacent-pair condition: no digit sits next to a non-digit word
character. -/
def pairOkB (a b : Char) : Bool :=
  !(isDigitC a && (isWordC b && !isDigitC b)) &&
    !((isWordC a && !isDigitC a) && isDigitC b)

/-- Every digit run of the list is delimited by non-word characters. -/
def digitsIsolated : List Char → Bool
  | a :: b :: rest => pairOkB a b && digitsIsolated (b :: rest)
  | _ => true

/-- Does `pat` occur at the head of the second argument? -/
def startsWithL : List Char → List Char → Bool
  | [], _ => true
  | _ :: _, [] => false
  | p :: ps, c :: cs => c == p && startsWithL ps cs

/-- Does `pat` occur as a contiguous substring? -/
def containsSub (pat : List Char) : List Char → Bool
  | [] => startsWithL pat []
  | c :: cs => startsWithL pat (c :: cs) || containsSub pat cs

/-- The words that must not occur in a well-formed normal form: the stop
words, the roman-numeral words, the spelled-out number words, and the words
that can trigger the possessive and compound-fixup rules. -/
def badWords : List String :=
  stopWords ++
  ["i", "ii", "iii", "iv", "v", "vi", "vii", "viii", "ix", "x", "xi", "xii",
   "xiii", "xiv", "xv", "xvi", "xvii", "xviii", "xix", "xx", "xxi", "xxii",
   "xxiii", "xxiv", "xxv"] ++
  ["zero", "one", "two", "three", "four", "five", "six", "seven", "eight",
   "nine", "ten"] ++
  ["s", "half", "counter"]

/-- A sufficient syntactic condition for a string to be a fixed point of
`normalizeL`: single-space-separated words over lowercase letters and digits,
no four consecutive digits, digit runs never glued to letters, no forbidden
word, and no occurrence of the status phrases. -/
def WellFormedL (y : List Char) : Bool :=
  y.all (fun c => wfChars.contains c) &&
  decide (y = joinWords (splitWs y)) &&
  !hasFourDigits y &&
  digitsIsolated y &&
  (splitWs y).all (fun w => !(badWords.contains (String.mk w))) &&
  !(containsSub ("early access").data y) &&
  !(containsSub ("full release").data y)

/-! ## Claim C6 -/

/-- C6: for every non-empty rankings map with n entries,
`calculate_harmony_score` returns
(sum over all ranks of (101 − rank) if rank ≤ 100 else 0) × (100 + 25 × (n − 1)) / 100
computed with integer division, and for the empty rankings map it returns 0. -/
theorem claim_c6 (rankings : List (String × Int)) :
    calculate_harmony_score rankings =
      if rankings.isEmpty then 0
      else ((rankings.map (fun p => if p.2 ≤ 100 then 101 - p.2 else 0)).sum
        * (100 + 25 * ((rankings.length : Int) - 1))) / 100 := by
  cases rankings with
  | nil => rfl
  | cons h t =>
    have hcast : ((25 * ((h :: t).length - 1) : Nat) : Int) =
        25 * (((h :: t).length : Int) - 1) := by
      simp only [List.length_cons]
      omega
    simp only [calculate_harmony_score, List.isEmpty_cons, Bool.false_eq_true,
      if_false, hcast]

/-! ## Claim C7 -/

/-- C7 counterexample: on the spec's end-to-end scenario rankings
{A:1, B:5, C:12} the harmony score is not 437: the summed positional credit is
100 + 96 + 89 = 285 and 285 × 150 / 100 = 427. -/
theorem claim_c7_counterexample :
    calculate_harmony_score [("A", 1), ("B", 5), ("C", 12)] ≠ 437 := by decide

/-- C7 (amended): for the three-source rankings map {A:1, B:5, C:12},
`calculate_harmony_score` returns 427 = ((101-1)+(101-5)+(101-12)) × 150 / 100
(the spec's value 437 is an arithmetic slip). -/
theorem claim_c7 :
    calculate_harmony_score [("A", 1), ("B", 5), ("C", 12)] = 427 ∧
      (((101 - 1) + (101 - 5) + (101 - 12)) * 150 / 100 : Int) = 427 := by decide

/-! ## Claim C9 -/

/-- C9: the two scoring formulas in the source are not extensionally equal:
on {A:1, B:5, C:12} the services formula gives 285 × 150 / 100 = 427 while the
processor formula gives (285 / 3) × 150 / 100 = 142. -/
theorem claim_c9 :
    ∃ rankings : List (String × Nat),
      calculate_score rankings ≠
        calculate_harmony_score (rankings.map (fun p => (p.1, (p.2 : Int)))) := by
  refine ⟨[("A", 1), ("B", 5), ("C", 12)], ?_⟩
  decide

/-! ## Claim C3 -/

/-- C3: whenever the normalized query is a key of the exact name index,
`find_steam_id` returns that entry's id, for every content of the letter
buckets — in particular also when some bucket candidate under a different key
has higher edit-similarity to the query. -/
theorem claim_c3 (idx : AppIndex) (cfg : MatchingConfig) (game_name : String)
    (app : SteamApp)
    (hexact : lookupAssoc idx.name_index (normalize game_name) = some app) :
    find_steam_id idx cfg game_name = some app.appid := by
  simp only [find_steam_id, hexact]

/-- C3 witness: a concrete index whose exact map sends "abc" to id 1 while the
letter bucket for the same first character holds a perfect-similarity
candidate (its stored normalized title equals the query's normalized form)
with the different id 2; the lookup still returns 1. -/
theorem claim_c3_witness :
    lookupAssoc (α := String) [("abc", (⟨1, "abc orig"⟩ : SteamApp))] (normalize "abc")
        = some ⟨1, "abc orig"⟩ ∧
      normalized_levenshtein (normalize "abc").data "abc".data = 1 ∧
      find_steam_id
        { name_index := [("abc", ⟨1, "abc orig"⟩)],
          letter_index := [('a', [(⟨2, "impostor"⟩, "abc")])] }
        MatchingConfig.default "abc" = some 1 :=
  ⟨by decide,
    by
      rw [normalized_levenshtein_eval (normalize "abc").data "abc".data 0 3
        (by decide) (by decide) (by decide)]
      norm_num,
    claim_c3
      { name_index := [("abc", ⟨1, "abc orig"⟩)],
        letter_index := [('a', [(⟨2, "impostor"⟩, "abc")])] }
      MatchingConfig.default "abc" ⟨1, "abc orig"⟩ (by decide)⟩

/-! ## Claim C8 -/

/-- C8 counterexample: a present-but-malformed cache file does not fall
through to recomputation: `read_json_file` propagates the deserialization
error through `?`, and the merge stage aborts with that error instead of
returning the recomputed value. -/
theorem claim_c8_counterexample :
    (read_json_file (T := List MergedGame) (some "garbage")
        (fun s => if s = "[]" then Except.ok [] else Except.error "invalid JSON"))
        = Except.error "invalid JSON" ∧
      merge_games_stage
        (read_json_file (some "garbage")
          (fun s => if s = "[]" then Except.ok [] else Except.error "invalid JSON"))
        (merge_games id [⟨"A", [⟨"Portal", 1⟩]⟩])
        ≠ Except.ok (merge_games id [⟨"A", [⟨"Portal", 1⟩]⟩]) := by
  constructor
  · rfl
  · intro h
    simp [read_json_file, merge_games_stage] at h

/-- C8 (amended): absence of the persisted file is reported as "no snapshot"
(`Ok(None)`) and the stage falls through to recomputation; but a read or
deserialize failure is NOT treated as absence — it propagates as an error and
the stage aborts instead of recomputing. -/
theorem claim_c8 (deser : String → Except String (List MergedGame))
    (recompute : List MergedGame) :
    read_json_file none deser = Except.ok none ∧
      merge_games_stage (read_json_file none deser) recompute = Except.ok recompute ∧
      (∀ content e, deser content = Except.error e →
        merge_games_stage (read_json_file (some content) deser) recompute
          = Except.error e) := by
  refine ⟨rfl, rfl, ?_⟩
  intro content e h
  simp [read_json_file, merge_games_stage, h]

/-! ## Claim C4 -/

/-- The result of Rust's `max_by` fold is the accumulator or one of the folded
elements. -/
theorem maxBySim_fold_mem : ∀ (l : List (SteamApp × ℚ)) (acc : Option (SteamApp × ℚ))
    (x : SteamApp × ℚ),
    l.foldl (fun a y =>
      match a with
      | none => some y
      | some m => if m.2 > y.2 then some m else some y) acc = some x →
    acc = some x ∨ x ∈ l := by
  intro l
  induction l with
  | nil => intro acc x h; exact Or.inl h
  | cons h t ih =>
    intro acc x hfold
    simp only [List.foldl_cons] at hfold
    rcases ih _ x hfold with hstep | hmem
    · cases acc with
      | none =>
        simp only at hstep
        right
        rw [Option.some_inj] at hstep
        exact hstep ▸ List.mem_cons_self h t
      | some m =>
        simp only at hstep
        by_cases hc : m.2 > h.2
        · rw [if_pos hc] at hstep
          exact Or.inl hstep
        · rw [if_neg hc] at hstep
          right
          rw [Option.some_inj] at hstep
          exact hstep ▸ List.mem_cons_self h t
    · exact Or.inr (List.mem_cons_of_mem h hmem)

/-- `maxBySim` returns an element of its input list. -/
theorem maxBySim_mem (l : List (SteamApp × ℚ)) (x : SteamApp × ℚ)
    (h : maxBySim l = some x) : x ∈ l := by
  rcases maxBySim_fold_mem l none x h with hc | hm
  · exact absurd hc (by simp)
  · exact hm

/-- The fuzzy tail of `find_steam_id`: score the bucket candidates against the
normalized query, keep the ones strictly above the threshold, take the max. -/
def fuzzyResult (θ : ℚ) (ns : List Char) (candidates : List (SteamApp × String)) :
    Option Nat :=
  Option.map (fun p => p.1.appid)
    (maxBySim ((candidates.map (fun p =>
      (p.1, normalized_levenshtein ns p.2.data))).filter
        (fun p => decide (p.2 > θ))))

/-- If no candidate scores strictly above the threshold, the fuzzy lookup
yields nothing. -/
theorem fuzzyResult_none (θ : ℚ) (ns : List Char)
    (candidates : List (SteamApp × String))
    (hall : ∀ p ∈ candidates, normalized_levenshtein ns p.2.data ≤ θ) :
    fuzzyResult θ ns candidates = none := by
  unfold fuzzyResult
  have hnil : ((candidates.map (fun p =>
      (p.1, normalized_levenshtein ns p.2.data))).filter
        (fun p => decide (p.2 > θ))) = [] := by
    rw [List.filter_eq_nil_iff]
    intro q hq
    rcases List.mem_map.mp hq with ⟨p, hp, rfl⟩
    simp only [decide_eq_true_eq, not_lt]
    exact hall p hp
  rw [hnil]
  rfl

/-- Any id produced by the fuzzy lookup comes from a candidate whose
similarity strictly exceeds the threshold. -/
theorem fuzzyResult_some (θ : ℚ) (ns : List Char)
    (candidates : List (SteamApp × String)) (i : Nat)
    (hi : fuzzyResult θ ns candidates = some i) :
    ∃ p ∈ candidates, p.1.appid = i ∧ normalized_levenshtein ns p.2.data > θ := by
  unfold fuzzyResult at hi
  rcases Option.map_eq_some'.mp hi with ⟨q, hq, hqi⟩
  have hqmem := maxBySim_mem _ _ hq
  have hqf := List.mem_filter.mp hqmem
  rcases List.mem_map.mp hqf.1 with ⟨p, hp, hpq⟩
  refine ⟨p, hp, ?_, ?_⟩
  · rw [← hqi, ← hpq]
  · have h2 := hqf.2
    rw [← hpq] at h2
    simpa using h2

/-- A sole candidate strictly above the threshold is accepted and returned. -/
theorem fuzzyResult_single (θ : ℚ) (ns : List Char) (p : SteamApp × String)
    (hgt : normalized_levenshtein ns p.2.data > θ) :
    fuzzyResult θ ns [p] = some p.1.appid := by
  unfold fuzzyResult
  simp only [List.map_cons, List.map_nil, List.filter]
  rw [decide_eq_true (by exact_mod_cast hgt)]
  rfl

/-- C4: when the exact lookup misses and the query's first-character bucket
exists, a bucket candidate is kept only if its similarity to the normalized
query strictly exceeds the threshold: if every candidate is at or below the
threshold the lookup returns no match; any returned id comes from a candidate
strictly above the threshold; and a sole candidate strictly above the
threshold is accepted and returned. -/
theorem claim_c4 (idx : AppIndex) (cfg : MatchingConfig) (game_name : String)
    (c : Char) (cs : List Char) (candidates : List (SteamApp × String))
    (hmiss : lookupAssoc idx.name_index (normalize game_name) = none)
    (hchar : (normalize game_name).data = c :: cs)
    (hbucket : lookupAssoc idx.letter_index c = some candidates) :
    ((∀ p ∈ candidates,
        normalized_levenshtein (normalize game_name).data p.2.data
          ≤ cfg.similarity_threshold) →
      find_steam_id idx cfg game_name = none) ∧
    (∀ i, find_steam_id idx cfg game_name = some i →
      ∃ p ∈ candidates, p.1.appid = i ∧
        normalized_levenshtein (normalize game_name).data p.2.data
          > cfg.similarity_threshold) ∧
    (∀ p, candidates = [p] →
      normalized_levenshtein (normalize game_name).data p.2.data
          > cfg.similarity_threshold →
      find_steam_id idx cfg game_name = some p.1.appid) := by
  have hfind : find_steam_id idx cfg game_name =
      fuzzyResult cfg.similarity_threshold (normalize game_name).data candidates := by
    simp only [find_steam_id, hmiss, hchar, hbucket]
    rfl
  refine ⟨?_, ?_, ?_⟩
  · intro hall
    rw [hfind]
    exact fuzzyResult_none _ _ _ hall
  · intro i hi
    rw [hfind] at hi
    exact fuzzyResult_some _ _ _ _ hi
  · intro p hps hgt
    rw [hfind, hps]
    exact fuzzyResult_single _ _ _ hgt

set_option maxRecDepth 8000 in
/-- C4 witness: with the default threshold 0.9, a bucket candidate at distance
1 from a 10-character query scores exactly 9/10 and is rejected (no match),
while a candidate at distance 1 from a 20-character query scores 19/20 > 9/10
and is accepted and returned. -/
theorem claim_c4_witness :
    MatchingConfig.default.similarity_threshold = 9 / 10 ∧
      normalized_levenshtein (normalize "aaaaaaaaaa").data ("aaaaaaaaab").data = 9 / 10 ∧
      find_steam_id
        { name_index := [], letter_index := [('a', [(⟨5, "cand"⟩, "aaaaaaaaab")])] }
        MatchingConfig.default "aaaaaaaaaa" = none ∧
      normalized_levenshtein (normalize "aaaaaaaaaaaaaaaaaaaa").data
          ("aaaaaaaaaaaaaaaaaaab").data = 19 / 20 ∧
      find_steam_id
        { name_index := [],
          letter_index := [('a', [(⟨7, "cand2"⟩, "aaaaaaaaaaaaaaaaaaab")])] }
        MatchingConfig.default "aaaaaaaaaaaaaaaaaaaa" = some 7 := by
  have hs1 : normalized_levenshtein (normalize "aaaaaaaaaa").data ("aaaaaaaaab").data
      = 9 / 10 := by
    rw [normalized_levenshtein_eval _ _ 1 10 (by decide) (by decide) (by decide)]
    norm_num
  have hs2 : normalized_levenshtein (normalize "aaaaaaaaaaaaaaaaaaaa").data
      ("aaaaaaaaaaaaaaaaaaab").data = 19 / 20 := by
    rw [normalized_levenshtein_eval _ _ 1 20 (by decide) (by decide) (by decide)]
    norm_num
  refine ⟨rfl, hs1, ?_, hs2, ?_⟩
  · refine (claim_c4
      { name_index := [], letter_index := [('a', [(⟨5, "cand"⟩, "aaaaaaaaab")])] }
      MatchingConfig.default "aaaaaaaaaa" 'a' ("aaaaaaaaa").data
      [(⟨5, "cand"⟩, "aaaaaaaaab")] rfl (by decide) (by decide)).1 ?_
    intro p hp
    rw [List.mem_singleton] at hp
    rw [hp, hs1]
    norm_num [MatchingConfig.default]
  · refine (claim_c4
      { name_index := [],
        letter_index := [('a', [(⟨7, "cand2"⟩, "aaaaaaaaaaaaaaaaaaab")])] }
      MatchingConfig.default "aaaaaaaaaaaaaaaaaaaa" 'a' ("aaaaaaaaaaaaaaaaaaa").data
      [(⟨7, "cand2"⟩, "aaaaaaaaaaaaaaaaaaab")] rfl (by decide) (by decide)).2.2
      (⟨7, "cand2"⟩, "aaaaaaaaaaaaaaaaaaab") rfl ?_
    rw [hs2]
    norm_num [MatchingConfig.default]

/-! ## Claim C1: token-join injectivity -/

/-- Tokens produced by `numericTokens` are non-empty strings of digits. -/
theorem numericTokensAux_shape : ∀ (fuel : Nat) (b : Bool) (l : List Char),
    ∀ t ∈ numericTokensAux fuel b l, t.data ≠ [] ∧ ∀ c ∈ t.data, isDigitC c = true := by
  intro fuel
  induction fuel with
  | zero => intro b l t ht; simp [numericTokensAux] at ht
  | succ fuel ih =>
    intro b l t ht
    cases l with
    | nil => simp [numericTokensAux] at ht
    | cons c cs =>
      rw [numericTokensAux] at ht
      by_cases hd : isDigitC c = true
      · rw [if_pos hd] at ht
        rcases List.mem_append.mp ht with hin | hin
        · by_cases hok : (!b &&
              (match cs.dropWhile isDigitC with
               | [] => true
               | r :: _ => !isWordC r)) = true
          · rw [if_pos hok, List.mem_singleton] at hin
            subst hin
            refine ⟨by simp, ?_⟩
            intro d hdmem
            simp only [String.data] at hdmem
            rcases List.mem_cons.mp hdmem with rfl | hdm
            · exact hd
            · exact List.mem_takeWhile_imp hdm
          · rw [if_neg hok] at hin
            simp at hin
        · exact ih true (cs.dropWhile isDigitC) t hin
      · rw [if_neg hd] at ht
        exact ih (isWordC c) cs t ht

/-- Splitting a separator-equation: two separator-free segments followed by
tails that are empty or start with the separator agree segment-wise. -/
theorem strip_eq : ∀ (t1 t2 r1 r2 : List Char), '_' ∉ t1 → '_' ∉ t2 →
    (r1 = [] ∨ ∃ x, r1 = '_' :: x) → (r2 = [] ∨ ∃ x, r2 = '_' :: x) →
    t1 ++ r1 = t2 ++ r2 → t1 = t2 ∧ r1 = r2 := by
  intro t1
  induction t1 with
  | nil =>
    intro t2 r1 r2 _ h2 hr1 _ heq
    cases t2 with
    | nil => exact ⟨rfl, heq⟩
    | cons b t2' =>
      exfalso
      simp only [List.nil_append, List.cons_append] at heq
      rcases hr1 with rfl | ⟨x, rfl⟩
      · exact absurd heq.symm (by simp)
      · have hb : b = '_' := (List.cons.injEq _ _ _ _ ▸ heq).1.symm
        exact h2 (hb ▸ List.mem_cons_self b t2')
  | cons a t1' ih =>
    intro t2 r1 r2 h1 h2 hr1 hr2 heq
    cases t2 with
    | nil =>
      exfalso
      simp only [List.cons_append, List.nil_append] at heq
      rcases hr2 with rfl | ⟨x, rfl⟩
      · exact absurd heq (by simp)
      · have ha : a = '_' := (List.cons.injEq _ _ _ _ ▸ heq).1
        exact h1 (ha ▸ List.mem_cons_self a t1')
    | cons b t2' =>
      simp only [List.cons_append, List.cons.injEq] at heq
      have hrec := ih t2' r1 r2 (fun hm => h1 (List.mem_cons_of_mem a hm))
        (fun hm => h2 (List.mem_cons_of_mem b hm)) hr1 hr2 heq.2
      exact ⟨by rw [heq.1, hrec.1], hrec.2⟩

/-- `sepRest` is empty or starts with the separator. -/
theorem sepRest_shape (us : List (List Char)) :
    sepRest us = [] ∨ ∃ x, sepRest us = '_' :: x := by
  cases us with
  | nil => exact Or.inl rfl
  | cons u us => exact Or.inr ⟨u ++ sepRest us, rfl⟩

/-- `sepRest` is injective on separator-free segments. -/
theorem sepRest_inj : ∀ (ts1 ts2 : List (List Char)),
    (∀ t ∈ ts1, '_' ∉ t) → (∀ t ∈ ts2, '_' ∉ t) →
    sepRest ts1 = sepRest ts2 → ts1 = ts2 := by
  intro ts1
  induction ts1 with
  | nil =>
    intro ts2 _ _ heq
    cases ts2 with
    | nil => rfl
    | cons v vs => exact absurd heq (by simp [sepRest])
  | cons u us ih =>
    intro ts2 h1 h2 heq
    cases ts2 with
    | nil => exact absurd heq (by simp [sepRest])
    | cons v vs =>
      simp only [sepRest, List.cons.injEq] at heq
      have hsplit := strip_eq u v (sepRest us) (sepRest vs)
        (h1 u (List.mem_cons_self u us)) (h2 v (List.mem_cons_self v vs))
        (sepRest_shape us) (sepRest_shape vs) heq.2
      have htail := ih vs (fun t ht => h1 t (List.mem_cons_of_mem u ht))
        (fun t ht => h2 t (List.mem_cons_of_mem v ht)) hsplit.2
      rw [hsplit.1, htail]

/-- `sepJoin` is injective on lists of non-empty separator-free segments. -/
theorem sepJoin_inj (ts1 ts2 : List (List Char))
    (h1 : ∀ t ∈ ts1, t ≠ [] ∧ '_' ∉ t) (h2 : ∀ t ∈ ts2, t ≠ [] ∧ '_' ∉ t)
    (heq : sepJoin ts1 = sepJoin ts2) : ts1 = ts2 := by
  cases ts1 with
  | nil =>
    cases ts2 with
    | nil => rfl
    | cons v vs =>
      exfalso
      simp only [sepJoin] at heq
      rcases List.append_eq_nil.mp heq.symm with ⟨hv, -⟩
      exact (h2 v (List.mem_cons_self v vs)).1 hv
  | cons u us =>
    cases ts2 with
    | nil =>
      exfalso
      simp only [sepJoin] at heq
      rcases List.append_eq_nil.mp heq with ⟨hu, -⟩
      exact (h1 u (List.mem_cons_self u us)).1 hu
    | cons v vs =>
      simp only [sepJoin] at heq
      have hsplit := strip_eq u v (sepRest us) (sepRest vs)
        (h1 u (List.mem_cons_self u us)).2 (h2 v (List.mem_cons_self v vs)).2
        (sepRest_shape us) (sepRest_shape vs) heq
      have htail := sepRest_inj us vs (fun t ht => (h1 t (List.mem_cons_of_mem u ht)).2)
        (fun t ht => (h2 t (List.mem_cons_of_mem v ht)).2) hsplit.2
      rw [hsplit.1, htail]

/-- `joinTokens` is injective on the token lists produced by `numericTokens`:
tokens are non-empty digit strings, hence free of the separator. -/
theorem joinTokens_inj (l1 l2 : List Char)
    (heq : joinTokens (numericTokens l1) = joinTokens (numericTokens l2)) :
    numericTokens l1 = numericTokens l2 := by
  have hshape : ∀ (l : List Char), ∀ t ∈ (numericTokens l).map String.data,
      t ≠ [] ∧ '_' ∉ t := by
    intro l t ht
    rcases List.mem_map.mp ht with ⟨s, hs, rfl⟩
    have := numericTokensAux_shape l.length false l s hs
    refine ⟨this.1, fun hmem => ?_⟩
    have := this.2 '_' hmem
    simp [isDigitC, Char.isDigit] at this
  have hdata : sepJoin ((numericTokens l1).map String.data)
      = sepJoin ((numericTokens l2).map String.data) :=
    congrArg String.data heq
  have hmap := sepJoin_inj _ _ (hshape l1) (hshape l2) hdata
  have hinj : Function.Injective (String.data) := fun a b hab => by
    cases a
    cases b
    simp only at hab
    rw [hab]
  exact List.map_injective_iff.mpr hinj hmap

/-! ## Claim C1: grouping machinery -/

section GroupFold

variable {α : Type} {κ : Type} {β : Type} [DecidableEq κ]

/-- The common shape of the two grouping folds of perform_merge
(`entry().or_default().push` and the keyed merge of a title group): fold items
into an association list in first-seen key order, updating the present entry
or appending a fresh one. -/
def groupFold (key : α → κ) (ini : α → β) (upd : β → α → β) (xs : List α) :
    List (κ × β) :=
  xs.foldl (fun acc x =>
    if acc.any (fun p => p.1 = key x) then
      acc.map (fun p => if p.1 = key x then (p.1, upd p.2 x) else p)
    else acc ++ [(key x, ini x)]) []

/-- The value built from the items of one key class (none when the class is
empty). -/
def groupValOpt (ini : α → β) (upd : β → α → β) : List α → Option β
  | [] => none
  | x :: xs => some (xs.foldl upd (ini x))

theorem lookupAssoc_cons (p : κ × β) (t : List (κ × β)) (k : κ) :
    lookupAssoc (p :: t) k = if p.1 = k then some p.2 else lookupAssoc t k := by
  unfold lookupAssoc
  by_cases hp : p.1 = k
  · rw [List.find?_cons_of_pos _ (by simp [hp]), if_pos hp]
    rfl
  · rw [List.find?_cons_of_neg _ (by simp [hp]), if_neg hp]

theorem lookupAssoc_map_update (acc : List (κ × β)) (k0 k : κ) (f : β → β) :
    lookupAssoc (acc.map (fun p => if p.1 = k0 then (p.1, f p.2) else p)) k
      = if k = k0 then (lookupAssoc acc k).map f else lookupAssoc acc k := by
  induction acc with
  | nil =>
    by_cases hk : k = k0 <;> simp [hk, lookupAssoc]
  | cons p t ih =>
    simp only [List.map_cons]
    by_cases hp0 : p.1 = k0
    · rw [if_pos hp0]
      by_cases hpk : p.1 = k
      · rw [lookupAssoc_cons, lookupAssoc_cons, if_pos hpk, if_pos hpk]
        have hk : k = k0 := hpk ▸ hp0
        rw [if_pos hk]
        rfl
      · rw [lookupAssoc_cons, lookupAssoc_cons, if_neg hpk, if_neg hpk, ih]
    · rw [if_neg hp0]
      by_cases hpk : p.1 = k
      · have hk : ¬ k = k0 := fun h => hp0 (hpk.trans h)
        rw [lookupAssoc_cons, lookupAssoc_cons, if_pos hpk, if_pos hpk, if_neg hk]
      · rw [lookupAssoc_cons, lookupAssoc_cons, if_neg hpk, if_neg hpk, ih]

theorem lookupAssoc_append (l1 l2 : List (κ × β)) (k : κ) :
    lookupAssoc (l1 ++ l2) k =
      match lookupAssoc l1 k with
      | some v => some v
      | none => lookupAssoc l2 k := by
  induction l1 with
  | nil => simp [lookupAssoc]
  | cons p t ih =>
    rw [List.cons_append, lookupAssoc_cons, lookupAssoc_cons]
    by_cases hp : p.1 = k
    · rw [if_pos hp, if_pos hp]
    · rw [if_neg hp, if_neg hp, ih]

theorem any_eq_lookup_isSome (acc : List (κ × β)) (k : κ) :
    acc.any (fun p => p.1 = k) = (lookupAssoc acc k).isSome := by
  induction acc with
  | nil => simp [lookupAssoc]
  | cons p t ih =>
    rw [List.any_cons, lookupAssoc_cons]
    by_cases hp : p.1 = k
    · simp [hp]
    · have hd : (decide (p.1 = k)) = false := by simp [hp]
      rw [hd, if_neg hp]
      simp only [Bool.false_or]
      exact ih

theorem groupValOpt_eq_none (ini : α → β) (upd : β → α → β) (l : List α) :
    groupValOpt ini upd l = none ↔ l = [] := by
  cases l <;> simp [groupValOpt]

theorem groupValOpt_append_singleton (ini : α → β) (upd : β → α → β)
    (l : List α) (x : α) :
    groupValOpt ini upd (l ++ [x]) =
      match groupValOpt ini upd l with
      | none => some (ini x)
      | some b => some (upd b x) := by
  cases l with
  | nil => rfl
  | cons h t => simp [groupValOpt, List.foldl_append]

/-- The fold of `groupFold`, as a standalone function for induction. -/
def groupStep (key : α → κ) (ini : α → β) (upd : β → α → β)
    (acc : List (κ × β)) (x : α) : List (κ × β) :=
  if acc.any (fun p => p.1 = key x) then
    acc.map (fun p => if p.1 = key x then (p.1, upd p.2 x) else p)
  else acc ++ [(key x, ini x)]

theorem groupFold_eq_foldl (key : α → κ) (ini : α → β) (upd : β → α → β)
    (xs : List α) : groupFold key ini upd xs = xs.foldl (groupStep key ini upd) [] := rfl

theorem groupStep_lookup (key : α → κ) (ini : α → β) (upd : β → α → β)
    (acc : List (κ × β)) (pref : List α) (x : α)
    (h : ∀ k, lookupAssoc acc k = groupValOpt ini upd
      (pref.filter (fun y => key y = k))) (k : κ) :
    lookupAssoc (groupStep key ini upd acc x) k
      = groupValOpt ini upd ((pref ++ [x]).filter (fun y => key y = k)) := by
  unfold groupStep
  rw [List.filter_append]
  by_cases hany : (acc.any (fun p => p.1 = key x)) = true
  · rw [if_pos hany, lookupAssoc_map_update acc (key x) k (fun b => upd b x)]
    by_cases hk : k = key x
    · rw [if_pos hk, h k]
      have hx : (List.filter (fun y => decide (key y = k)) [x]) = [x] := by
        simp [hk]
      rw [hx, groupValOpt_append_singleton]
      have hsome : (lookupAssoc acc k).isSome = true := by
        rw [← any_eq_lookup_isSome]
        rw [hk]
        exact hany
      rw [h k] at hsome
      rcases Option.isSome_iff_exists.mp hsome with ⟨b, hb⟩
      rw [hb]
      rfl
    · rw [if_neg hk, h k]
      have hk' : ¬ key x = k := fun hx => hk hx.symm
      have hx : (List.filter (fun y => decide (key y = k)) [x]) = [] := by
        simp only [List.filter_cons, List.filter_nil]
        rw [if_neg (by simpa using hk')]
      rw [hx, List.append_nil]
  · rw [if_neg hany, lookupAssoc_append]
    have hnone : lookupAssoc acc (key x) = none := by
      have := any_eq_lookup_isSome acc (key x)
      rw [Bool.eq_false_iff.mpr hany] at this
      exact Option.not_isSome_iff_eq_none.mp (by rw [← this]; simp)
    by_cases hk : k = key x
    · subst hk
      have hfilt : pref.filter (fun y => decide (key y = key x)) = [] := by
        rw [← groupValOpt_eq_none ini upd, ← h (key x)]
        exact hnone
      rw [hnone, hfilt]
      simp [lookupAssoc_cons, groupValOpt]
    · have hk' : ¬ key x = k := fun hx => hk hx.symm
      rw [h k]
      have hfx : (List.filter (fun y => decide (key y = k)) [x]) = [] := by
        simp only [List.filter_cons, List.filter_nil]
        rw [if_neg (by simpa using hk')]
      rw [hfx, List.append_nil]
      have hsingle : lookupAssoc [(key x, ini x)] k = none := by
        rw [lookupAssoc_cons, if_neg hk']
        rfl
      rw [hsingle]
      cases hgv : groupValOpt ini upd (pref.filter (fun y => decide (key y = k))) <;> rfl

theorem groupFold_go (key : α → κ) (ini : α → β) (upd : β → α → β)
    (xs : List α) :
    ∀ (acc : List (κ × β)) (pref : List α),
    (∀ k, lookupAssoc acc k
      = groupValOpt ini upd (pref.filter (fun y => key y = k))) →
    ∀ k, lookupAssoc (xs.foldl (groupStep key ini upd) acc) k
      = groupValOpt ini upd ((pref ++ xs).filter (fun y => key y = k)) := by
  induction xs with
  | nil =>
    intro acc pref h k
    simpa using h k
  | cons x xs ih =>
    intro acc pref h k
    rw [List.foldl_cons]
    have := ih (groupStep key ini upd acc x) (pref ++ [x])
      (fun k => groupStep_lookup key ini upd acc pref x h k) k
    rw [this, List.append_assoc]
    rfl

/-- The central grouping lemma: looking a key up in a `groupFold` result gives
the value folded from exactly the items of that key class, in order. -/
theorem groupFold_lookup (key : α → κ) (ini : α → β) (upd : β → α → β)
    (xs : List α) (k : κ) :
    lookupAssoc (groupFold key ini upd xs) k
      = groupValOpt ini upd (xs.filter (fun y => key y = k)) := by
  rw [groupFold_eq_foldl]
  have := groupFold_go key ini upd xs [] [] (fun k => by simp [lookupAssoc, groupValOpt]) k
  simpa using this

theorem groupStep_keys (key : α → κ) (ini : α → β) (upd : β → α → β)
    (acc : List (κ × β)) (x : α) (hnd : (acc.map Prod.fst).Nodup) :
    ((groupStep key ini upd acc x).map Prod.fst).Nodup := by
  unfold groupStep
  by_cases hany : (acc.any (fun p => p.1 = key x)) = true
  · rw [if_pos hany]
    have : (acc.map (fun p => if p.1 = key x then (p.1, upd p.2 x) else p)).map Prod.fst
        = acc.map Prod.fst := by
      rw [List.map_map]
      apply List.map_congr_left
      intro p _
      by_cases hp : p.1 = key x <;> simp [hp]
    rw [this]
    exact hnd
  · rw [if_neg hany]
    rw [List.map_append]
    apply List.Nodup.append hnd (by simp)
    intro a ha hb
    simp only [List.map_cons, List.map_nil, List.mem_singleton] at hb
    subst hb
    apply hany
    rw [List.any_eq_true]
    rcases List.mem_map.mp ha with ⟨p, hp, hpa⟩
    exact ⟨p, hp, by simp [hpa]⟩

theorem groupFold_keys_nodup (key : α → κ) (ini : α → β) (upd : β → α → β)
    (xs : List α) : ((groupFold key ini upd xs).map Prod.fst).Nodup := by
  rw [groupFold_eq_foldl]
  have hgen : ∀ (acc : List (κ × β)), (acc.map Prod.fst).Nodup →
      ((xs.foldl (groupStep key ini upd) acc).map Prod.fst).Nodup := by
    induction xs with
    | nil => intro acc h; exact h
    | cons x xs ih =>
      intro acc h
      rw [List.foldl_cons]
      exact ih _ (groupStep_keys key ini upd acc x h)
  exact hgen [] (by simp)

theorem mem_iff_lookupAssoc (l : List (κ × β)) (hnd : (l.map Prod.fst).Nodup)
    (k : κ) (v : β) : (k, v) ∈ l ↔ lookupAssoc l k = some v := by
  constructor
  · intro hmem
    induction l with
    | nil => simp at hmem
    | cons p t ih =>
      rw [lookupAssoc_cons]
      rcases List.mem_cons.mp hmem with rfl | hmt
      · rw [if_pos rfl]
      · by_cases hp : p.1 = k
        · exfalso
          rw [List.map_cons, List.nodup_cons] at hnd
          apply hnd.1
          rw [hp]
          exact List.mem_map.mpr ⟨(k, v), hmt, rfl⟩
        · rw [if_neg hp]
          exact ih (by rw [List.map_cons, List.nodup_cons] at hnd; exact hnd.2) hmt
  · intro hlk
    unfold lookupAssoc at hlk
    rcases Option.map_eq_some'.mp hlk with ⟨p, hp, hpv⟩
    have hmem := List.mem_of_find?_eq_some hp
    have hkey := List.find?_some hp
    simp only [decide_eq_true_eq] at hkey
    have : p = (k, v) := by
      cases p
      simp only at hpv hkey
      rw [hpv, hkey]
    exact this ▸ hmem

end GroupFold

/-! ## Claim C1: the merge characterization -/

/-- The numeric-token sequence the merge derives from a raw title (the
`\b\d+\b` matches of its normalized form). -/
def tokensOfTitle (t : String) : List String := numericTokens (normalizeL t.data)

/-- The grouping key the merge derives from a raw title (its normalized form
with the `\b\d+\b` matches removed and whitespace collapsed). -/
def groupKeyOfTitle (t : String) : String := nonNumericTitle (normalizeL t.data)

theorem groupByTitle_eq_groupFold (games : List GameData) :
    groupByTitle games = groupFold (fun g => g.non_numeric_title)
      (fun g => [g]) (fun l g => l ++ [g]) games := rfl

theorem mergeGroup_eq_groupFold (group : List GameData) :
    mergeGroup group = groupFold (fun g => joinTokens g.numeric_tokens)
      create_new_merged_game update_existing_game group := rfl

theorem foldl_push (l : List GameData) :
    ∀ init : List GameData, l.foldl (fun acc y => acc ++ [y]) init = init ++ l := by
  induction l with
  | nil => intro init; simp
  | cons h t ih => intro init; simp [ih]

theorem groupValOpt_push (l : List GameData) :
    groupValOpt (fun g => [g]) (fun acc g => acc ++ [g]) l
      = if l = [] then none else some l := by
  cases l with
  | nil => rfl
  | cons x xs =>
    rw [if_neg (by simp)]
    show some (xs.foldl (fun acc g => acc ++ [g]) [x]) = some (x :: xs)
    rw [foldl_push]
    rfl

/-- Looking up a grouping key in the outer fold of perform_merge yields the
sub-list of items with that key, when non-empty. -/
theorem groupByTitle_lookup (games : List GameData) (k : String) :
    lookupAssoc (groupByTitle games) k
      = if games.filter (fun g => g.non_numeric_title = k) = [] then none
        else some (games.filter (fun g => g.non_numeric_title = k)) := by
  rw [groupByTitle_eq_groupFold, groupFold_lookup, groupValOpt_push]

/-- The accumulated original names of a fold of `update_existing_game`. -/
theorem foldl_update_names (rest : List GameData) :
    ∀ mg0 : MergedGame,
    (rest.foldl update_existing_game mg0).original_names
      = rest.foldl (fun ns g =>
          if ns.contains g.original_name then ns else ns ++ [g.original_name])
        mg0.original_names := by
  induction rest with
  | nil => intro mg0; rfl
  | cons g t ih =>
    intro mg0
    simp only [List.foldl_cons]
    rw [ih]
    rfl

/-- Membership in the dedup-append fold of names. -/
theorem mem_dedup_fold (l : List GameData) :
    ∀ (acc : List String) (n : String),
    n ∈ l.foldl (fun ns g =>
        if ns.contains g.original_name then ns else ns ++ [g.original_name]) acc
      ↔ n ∈ acc ∨ n ∈ l.map (fun g => g.original_name) := by
  induction l with
  | nil => intro acc n; simp
  | cons g t ih =>
    intro acc n
    simp only [List.foldl_cons, List.map_cons, List.mem_cons]
    rw [ih]
    by_cases hc : (acc.contains g.original_name) = true
    · rw [if_pos hc]
      have hg : g.original_name ∈ acc := List.elem_iff.mp hc
      constructor
      · rintro (h | h)
        · exact Or.inl h
        · exact Or.inr (Or.inr h)
      · rintro (h | h | h)
        · exact Or.inl h
        · exact Or.inl (h ▸ hg)
        · exact Or.inr h
    · rw [if_neg hc]
      rw [List.mem_append, List.mem_singleton]
      tauto

/-- A name occurs in a merged game built from a non-empty item class exactly
when it is the original name of one of the items. -/
theorem names_of_built (x : GameData) (rest : List GameData) (n : String) :
    n ∈ (rest.foldl update_existing_game (create_new_merged_game x)).original_names
      ↔ n ∈ (x :: rest).map (fun g => g.original_name) := by
  rw [foldl_update_names, mem_dedup_fold]
  unfold create_new_merged_game
  simp

attribute [irreducible] normalizeL

/-- `prepare_game_data` computes every derived field from the raw title. -/
theorem prepare_fields (nsrc : String → String) (website_games : List WebsiteGames)
    (gd : GameData) (h : gd ∈ prepare_game_data nsrc website_games) :
    gd.numeric_tokens = tokensOfTitle gd.original_name ∧
      gd.non_numeric_title = groupKeyOfTitle gd.original_name := by
  unfold prepare_game_data at h
  rcases List.mem_flatten.mp h with ⟨inner, hinner, hgd⟩
  rcases List.mem_map.mp hinner with ⟨w, _, rfl⟩
  rcases List.mem_map.mp hgd with ⟨rg, _, rfl⟩
  exact ⟨rfl, rfl⟩

/-- A title occurring in the scraped input yields a prepared item with that
original name, and conversely. -/
theorem prepare_occurs (nsrc : String → String) (website_games : List WebsiteGames)
    (t : String) :
    (∃ w ∈ website_games, ∃ rg ∈ w.games, rg.name = t)
      ↔ ∃ gd ∈ prepare_game_data nsrc website_games, gd.original_name = t := by
  unfold prepare_game_data
  constructor
  · rintro ⟨w, hw, rg, hrg, rfl⟩
    refine ⟨_, List.mem_flatten.mpr ⟨_, List.mem_map.mpr ⟨w, hw, rfl⟩,
      List.mem_map.mpr ⟨rg, hrg, rfl⟩⟩, rfl⟩
  · rintro ⟨gd, hgd, rfl⟩
    rcases List.mem_flatten.mp hgd with ⟨inner, hinner, hgdin⟩
    rcases List.mem_map.mp hinner with ⟨w, hw, rfl⟩
    rcases List.mem_map.mp hgdin with ⟨rg, hrg, rfl⟩
    exact ⟨w, hw, rg, hrg, rfl⟩

/-- Membership of a merged game in the output of perform_merge, in terms of
the two grouping lookups. -/
theorem perform_merge_mem (items : List GameData) (mg : MergedGame) :
    mg ∈ perform_merge items
      ↔ ∃ k glist vk, lookupAssoc (groupByTitle items) k = some glist ∧
          lookupAssoc (mergeGroup glist) vk = some mg := by
  unfold perform_merge
  constructor
  · intro h
    rcases List.mem_flatten.mp h with ⟨inner, hinner, hmg⟩
    rcases List.mem_map.mp hinner with ⟨pair, hpair, rfl⟩
    rcases List.mem_map.mp hmg with ⟨q, hq, rfl⟩
    refine ⟨pair.1, pair.2, q.1, ?_, ?_⟩
    · rw [← mem_iff_lookupAssoc (groupByTitle items) ?_ pair.1 pair.2]
      · exact hpair
      · rw [groupByTitle_eq_groupFold]
        exact groupFold_keys_nodup _ _ _ _
    · rw [← mem_iff_lookupAssoc (mergeGroup pair.2) ?_ q.1 q.2]
      · exact hq
      · rw [mergeGroup_eq_groupFold]
        exact groupFold_keys_nodup _ _ _ _
  · rintro ⟨k, glist, vk, hk, hvk⟩
    have hpair : (k, glist) ∈ groupByTitle items := by
      rw [mem_iff_lookupAssoc (groupByTitle items) ?_ k glist]
      · exact hk
      · rw [groupByTitle_eq_groupFold]
        exact groupFold_keys_nodup _ _ _ _
    have hq : (vk, mg) ∈ mergeGroup glist := by
      rw [mem_iff_lookupAssoc (mergeGroup glist) ?_ vk mg]
      · exact hvk
      · rw [mergeGroup_eq_groupFold]
        exact groupFold_keys_nodup _ _ _ _
    exact List.mem_flatten.mpr ⟨(mergeGroup glist).map (fun q => q.2),
      List.mem_map.mpr ⟨(k, glist), hpair, rfl⟩,
      List.mem_map.mpr ⟨(vk, mg), hq, rfl⟩⟩

/-- C1 (amended): two scraped items fold into the same `MergedGame` iff their
normalized titles, after removing every word-boundary-delimited maximal digit
run (the regex `\b\d+\b` — a digit run adjacent to a letter, digit or
underscore is not a token) and collapsing whitespace, are identical AND their
left-to-right sequences of word-boundary-delimited maximal digit runs are
identical. -/
theorem claim_c1 (nsrc : String → String) (website_games : List WebsiteGames)
    (t1 t2 : String)
    (h1 : ∃ w ∈ website_games, ∃ rg ∈ w.games, rg.name = t1)
    (h2 : ∃ w ∈ website_games, ∃ rg ∈ w.games, rg.name = t2) :
    (∃ mg ∈ merge_games nsrc website_games,
        t1 ∈ mg.original_names ∧ t2 ∈ mg.original_names)
      ↔ (groupKeyOfTitle t1 = groupKeyOfTitle t2 ∧
          tokensOfTitle t1 = tokensOfTitle t2) := by
  unfold merge_games
  constructor
  · rintro ⟨mg, hmg, hn1, hn2⟩
    rw [perform_merge_mem] at hmg
    obtain ⟨k, glist, vk, hk, hvk⟩ := hmg
    rw [groupByTitle_lookup] at hk
    by_cases hfe : (prepare_game_data nsrc website_games).filter
        (fun g => g.non_numeric_title = k) = []
    · rw [if_pos hfe] at hk
      cases hk
    · rw [if_neg hfe] at hk
      have hglist : glist = (prepare_game_data nsrc website_games).filter
          (fun g => g.non_numeric_title = k) := (Option.some_inj.mp hk).symm
      rw [mergeGroup_eq_groupFold, groupFold_lookup] at hvk
      cases hfl : glist.filter (fun g => joinTokens g.numeric_tokens = vk) with
      | nil =>
        rw [hfl] at hvk
        cases hvk
      | cons x rest =>
        rw [hfl] at hvk
        have hmgval : mg = rest.foldl update_existing_game (create_new_merged_game x) :=
          (Option.some_inj.mp hvk).symm
        have hname : ∀ t, t ∈ mg.original_names →
            ∃ gd ∈ prepare_game_data nsrc website_games, gd.original_name = t ∧
              gd.non_numeric_title = k ∧ joinTokens gd.numeric_tokens = vk := by
          intro t ht
          rw [hmgval, names_of_built] at ht
          rcases List.mem_map.mp ht with ⟨gd, hgd, rfl⟩
          rw [← hfl] at hgd
          have hgd2 := List.mem_filter.mp hgd
          have hgd3 := List.mem_filter.mp (hglist ▸ hgd2.1)
          exact ⟨gd, hgd3.1, rfl, of_decide_eq_true hgd3.2, of_decide_eq_true hgd2.2⟩
        obtain ⟨gd1, hgd1mem, hgd1name, hgd1k, hgd1v⟩ := hname t1 hn1
        obtain ⟨gd2, hgd2mem, hgd2name, hgd2k, hgd2v⟩ := hname t2 hn2
        have hf1 := prepare_fields nsrc website_games gd1 hgd1mem
        have hf2 := prepare_fields nsrc website_games gd2 hgd2mem
        constructor
        · rw [← hgd1name, ← hgd2name, ← hf1.2, ← hf2.2, hgd1k, hgd2k]
        · have hjoin : joinTokens (tokensOfTitle t1) = joinTokens (tokensOfTitle t2) := by
            rw [← hgd1name, ← hgd2name, ← hf1.1, ← hf2.1, hgd1v, hgd2v]
          exact joinTokens_inj _ _ hjoin
  · rintro ⟨hgk, htk⟩
    obtain ⟨gd1, hgd1mem, hgd1name⟩ := (prepare_occurs nsrc website_games t1).mp h1
    obtain ⟨gd2, hgd2mem, hgd2name⟩ := (prepare_occurs nsrc website_games t2).mp h2
    have hf1 := prepare_fields nsrc website_games gd1 hgd1mem
    have hf2 := prepare_fields nsrc website_games gd2 hgd2mem
    have hgd1k : gd1.non_numeric_title = groupKeyOfTitle t1 := by
      rw [hf1.2, hgd1name]
    have hgd2k : gd2.non_numeric_title = groupKeyOfTitle t1 := by
      rw [hf2.2, hgd2name, ← hgk]
    have hgd1v : joinTokens gd1.numeric_tokens = joinTokens (tokensOfTitle t1) := by
      rw [hf1.1, hgd1name]
    have hgd2v : joinTokens gd2.numeric_tokens = joinTokens (tokensOfTitle t1) := by
      rw [hf2.1, hgd2name, ← htk]
    have hgd1glist : gd1 ∈ (prepare_game_data nsrc website_games).filter
        (fun g => g.non_numeric_title = groupKeyOfTitle t1) :=
      List.mem_filter.mpr ⟨hgd1mem, by rw [hgd1k]; simp⟩
    have hgd2glist : gd2 ∈ (prepare_game_data nsrc website_games).filter
        (fun g => g.non_numeric_title = groupKeyOfTitle t1) :=
      List.mem_filter.mpr ⟨hgd2mem, by rw [hgd2k]; simp⟩
    have hk : lookupAssoc (groupByTitle (prepare_game_data nsrc website_games))
        (groupKeyOfTitle t1) = some ((prepare_game_data nsrc website_games).filter
          (fun g => g.non_numeric_title = groupKeyOfTitle t1)) := by
      rw [groupByTitle_lookup,
        if_neg (List.ne_nil_of_mem hgd1glist)]
    have hgd1fl : gd1 ∈ ((prepare_game_data nsrc website_games).filter
        (fun g => g.non_numeric_title = groupKeyOfTitle t1)).filter
          (fun g => joinTokens g.numeric_tokens = joinTokens (tokensOfTitle t1)) :=
      List.mem_filter.mpr ⟨hgd1glist, by rw [hgd1v]; simp⟩
    have hgd2fl : gd2 ∈ ((prepare_game_data nsrc website_games).filter
        (fun g => g.non_numeric_title = groupKeyOfTitle t1)).filter
          (fun g => joinTokens g.numeric_tokens = joinTokens (tokensOfTitle t1)) :=
      List.mem_filter.mpr ⟨hgd2glist, by rw [hgd2v]; simp⟩
    cases hfl : ((prepare_game_data nsrc website_games).filter
        (fun g => g.non_numeric_title = groupKeyOfTitle t1)).filter
          (fun g => joinTokens g.numeric_tokens = joinTokens (tokensOfTitle t1)) with
    | nil =>
      rw [hfl] at hgd1fl
      cases hgd1fl
    | cons x rest =>
      have hvk : lookupAssoc (mergeGroup ((prepare_game_data nsrc website_games).filter
          (fun g => g.non_numeric_title = groupKeyOfTitle t1)))
            (joinTokens (tokensOfTitle t1))
          = some (rest.foldl update_existing_game (create_new_merged_game x)) := by
        rw [mergeGroup_eq_groupFold, groupFold_lookup, hfl]
        rfl
      refine ⟨rest.foldl update_existing_game (create_new_merged_game x),
        (perform_merge_mem _ _).mpr ⟨groupKeyOfTitle t1, _,
          joinTokens (tokensOfTitle t1), hk, hvk⟩, ?_, ?_⟩
      · rw [names_of_built]
        rw [hfl] at hgd1fl
        exact List.mem_map.mpr ⟨gd1, hgd1fl, hgd1name⟩
      · rw [names_of_built]
        rw [hfl] at hgd2fl
        exact List.mem_map.mpr ⟨gd2, hgd2fl, hgd2name⟩

set_option allowUnsafeReducibility true in
attribute [semireducible] normalizeL

/-- C1 witness: "Mass Effect 2" and "Mass Effect II" — equal group keys
("mass effect") and equal `\b\d+\b` token sequences (["2"]) — are folded into
one `MergedGame` carrying both names. -/
theorem claim_c1_witness :
    ∃ mg ∈ merge_games id
        [⟨"A", [⟨"Mass Effect 2", 1⟩]⟩, ⟨"B", [⟨"Mass Effect II", 3⟩]⟩],
      "Mass Effect 2" ∈ mg.original_names ∧ "Mass Effect II" ∈ mg.original_names :=
  (claim_c1 id [⟨"A", [⟨"Mass Effect 2", 1⟩]⟩, ⟨"B", [⟨"Mass Effect II", 3⟩]⟩]
    "Mass Effect 2" "Mass Effect II" (by decide) (by decide)).mpr
    ⟨by decide, by decide⟩

/-- C1 counterexample: the claim's tokens are the *maximal digit runs* of the
normalized title, with no word-boundary condition.  The titles "a-x 7" and
"7 a-x" normalize to "a10 7" and "7 a10" (the roman x becomes 10 and the
hyphen is dropped, gluing the 10 to the letter); their maximal-digit-run
sequences ["10","7"] and ["7","10"] differ, so the claim says they are never
merged — yet the code merges them into one `MergedGame`, because its
`\b\d+\b` regex does not treat the letter-adjacent "10" as a token. -/
theorem claim_c1_counterexample :
    (∃ mg ∈ merge_games id [⟨"A", [⟨"a-x 7", 1⟩]⟩, ⟨"B", [⟨"7 a-x", 2⟩]⟩],
      "a-x 7" ∈ mg.original_names ∧ "7 a-x" ∈ mg.original_names) ∧
    specTokensOf "a-x 7" = ["10", "7"] ∧
    specTokensOf "7 a-x" = ["7", "10"] ∧
    specTokensOf "a-x 7" ≠ specTokensOf "7 a-x" ∧
    specGroupKeyOf "a-x 7" = specGroupKeyOf "7 a-x" := by
  refine ⟨by decide, by decide, by decide, by decide, by decide⟩

/-! ## Claim C10 -/

/-- `insertAssoc` never produces the empty map. -/
theorem insertAssoc_ne_nil {α : Type} [DecidableEq α] {β : Type}
    (m : List (α × β)) (k : α) (v : β) : insertAssoc m k v ≠ [] := by
  unfold insertAssoc
  cases m with
  | nil => simp
  | cons h t =>
    by_cases hany : ((h :: t).any (fun p => p.1 = k)) = true
    · rw [if_pos hany]
      simp
    · rw [if_neg hany]
      simp

/-- `update_existing_game` preserves non-emptiness of both fields. -/
theorem update_existing_game_fields (mg : MergedGame) (g : GameData)
    (h : mg.original_names ≠ []) :
    (update_existing_game mg g).original_names ≠ [] ∧
      (update_existing_game mg g).rankings ≠ [] := by
  unfold update_existing_game
  refine ⟨?_, insertAssoc_ne_nil _ _ _⟩
  by_cases hc : g.original_name ∈ mg.original_names
  · simp [hc, h]
  · simp [hc]

/-- Every merged game accumulated by the inner fold of perform_merge has a
non-empty name list and a non-empty rankings map. -/
theorem mergeGroup_foldl_inv (group : List GameData) :
    ∀ acc : List (String × MergedGame),
    (∀ p ∈ acc, p.2.original_names ≠ [] ∧ p.2.rankings ≠ []) →
    ∀ p ∈ group.foldl mergeGroupStep acc,
      p.2.original_names ≠ [] ∧ p.2.rankings ≠ [] := by
  induction group with
  | nil => intro acc hacc p hp; exact hacc p hp
  | cons g gs ih =>
    intro acc hacc p hp
    simp only [List.foldl_cons] at hp
    refine ih (mergeGroupStep acc g) ?_ p hp
    intro q hq
    unfold mergeGroupStep at hq
    by_cases hany : (acc.any (fun p => p.1 = joinTokens g.numeric_tokens)) = true
    · rw [if_pos hany] at hq
      rcases List.mem_map.mp hq with ⟨q0, hq0, rfl⟩
      by_cases hkey : q0.1 = joinTokens g.numeric_tokens
      · rw [if_pos hkey]
        exact update_existing_game_fields q0.2 g (hacc q0 hq0).1
      · rw [if_neg hkey]
        exact hacc q0 hq0
    · rw [if_neg hany] at hq
      rcases List.mem_append.mp hq with hq0 | hq0
      · exact hacc q hq0
      · rw [List.mem_singleton] at hq0
        subst hq0
        unfold create_new_merged_game
        exact ⟨by simp, by simp⟩

/-- C10: every `MergedGame` produced by the merge step has a non-empty
`original_names` list and a non-empty `rankings` map (each merged game is
seeded with one original name and one (source, rank) entry, and updates never
remove elements); in particular the matcher's unchecked access to
`original_names[0]` is in bounds. -/
theorem claim_c10 (nsrc : String → String) (website_games : List WebsiteGames)
    (g : MergedGame) (hg : g ∈ merge_games nsrc website_games) :
    g.original_names ≠ [] ∧ g.rankings ≠ [] ∧ 0 < g.original_names.length := by
  unfold merge_games perform_merge at hg
  rcases List.mem_flatten.mp hg with ⟨inner, hinner, hgin⟩
  rcases List.mem_map.mp hinner with ⟨pair, _, rfl⟩
  rcases List.mem_map.mp hgin with ⟨q, hq, rfl⟩
  have h := mergeGroup_foldl_inv pair.2 [] (by simp) q hq
  exact ⟨h.1, h.2, List.length_pos.mpr h.1⟩

/-- C10 witness: the single merged game of a concrete one-source input. -/
theorem claim_c10_witness :
    (⟨"portal", ["Portal"], [("A", 1)]⟩ : MergedGame).original_names ≠ [] ∧
    (⟨"portal", ["Portal"], [("A", 1)]⟩ : MergedGame).rankings ≠ [] ∧
    0 < (⟨"portal", ["Portal"], [("A", 1)]⟩ : MergedGame).original_names.length :=
  claim_c10 id [⟨"A", [⟨"Portal", 1⟩]⟩] ⟨"portal", ["Portal"], [("A", 1)]⟩ (by decide)

/-! ## Claim C5 -/

/-- Whether a string's first character is `k` (the bucket membership test). -/
def headCharIs (k : Char) (s : String) : Bool :=
  match s.data with
  | [] => false
  | c :: _ => c = k

/-- One `insertApp` step preserves the bucket-content invariant: every letter
bucket holds, in order, exactly the processed entries whose normalized title
starts with the bucket's key. -/
theorem insertApp_letter (idx : AppIndex) (pref : List (SteamApp × String))
    (p : SteamApp × String)
    (h : idx.letter_index = initialLetterIndex.map
      (fun q => (q.1, pref.filter (fun r => headCharIs q.1 r.2)))) :
    (insertApp idx p).letter_index = initialLetterIndex.map
      (fun q => (q.1, (pref ++ [p]).filter (fun r => headCharIs q.1 r.2))) := by
  unfold insertApp
  cases hd : p.2.data with
  | nil =>
    simp only [hd, h]
    apply List.map_congr_left
    intro q _
    have : headCharIs q.1 p.2 = false := by
      unfold headCharIs
      rw [hd]
    rw [List.filter_append]
    simp [this]
  | cons c rest =>
    simp only [hd, h]
    have hany : (initialLetterIndex.map
        (fun q => (q.1, pref.filter (fun r => headCharIs q.1 r.2)))).any
          (fun q => q.1 = c)
        = initialLetterIndex.any (fun q => q.1 = c) := by
      rw [List.any_map]
      rfl
    rw [hany]
    by_cases hbkt : initialLetterIndex.any (fun q => decide (q.1 = c)) = true
    · rw [if_pos hbkt, List.map_map]
      apply List.map_congr_left
      intro q _
      have hhead : headCharIs q.1 p.2 = decide (c = q.1) := by
        unfold headCharIs
        rw [hd]
      by_cases hqc : q.1 = c
      · have hpc : headCharIs q.1 p.2 = true := by
          rw [hhead, hqc]
          simp
        rw [hqc] at hpc
        simp only [Function.comp_apply, hqc, if_pos rfl, List.filter_append]
        simp [hpc]
      · simp only [Function.comp_apply, if_neg hqc, List.filter_append]
        have : decide (c = q.1) = false := by
          simp only [decide_eq_false_iff_not]
          exact fun hcq => hqc hcq.symm
        simp [hhead, this]
    · rw [if_neg hbkt]
      apply List.map_congr_left
      intro q hq
      have hqc : ¬ q.1 = c := by
        intro hqc
        exact hbkt (List.any_eq_true.mpr ⟨q, hq, by simp [hqc]⟩)
      have hhead : headCharIs q.1 p.2 = false := by
        unfold headCharIs
        rw [hd]
        simp only [decide_eq_false_iff_not]
        exact fun hcq => hqc hcq.symm
      rw [List.filter_append]
      simp [hhead]

/-- The letter buckets after folding `insertApp` over a batch of processed
entries. -/
theorem foldl_insertApp_letter (ps : List (SteamApp × String)) :
    ∀ (idx : AppIndex) (pref : List (SteamApp × String)),
    idx.letter_index = initialLetterIndex.map
      (fun q => (q.1, pref.filter (fun r => headCharIs q.1 r.2))) →
    (ps.foldl insertApp idx).letter_index = initialLetterIndex.map
      (fun q => (q.1, (pref ++ ps).filter (fun r => headCharIs q.1 r.2))) := by
  induction ps with
  | nil =>
    intro idx pref h
    simpa using h
  | cons p ps ih =>
    intro idx pref h
    simp only [List.foldl_cons]
    have := ih (insertApp idx p) (pref ++ [p]) (insertApp_letter idx pref p h)
    rw [this, List.append_assoc]
    rfl

/-- The letter buckets of a built index: per bucket key, the processed entries
whose normalized title starts with that key, sorted by normalized title. -/
theorem build_index_letter (steam_apps : List SteamApp) (cfg : MatchingConfig) :
    (build_index steam_apps cfg).letter_index = initialLetterIndex.map
      (fun q => (q.1, sortBucket ((processedApps steam_apps cfg).filter
        (fun r => headCharIs q.1 r.2)))) := by
  simp only [build_index]
  rw [foldl_insertApp_letter (processedApps steam_apps cfg)
    { name_index := [], letter_index := initialLetterIndex } [] (by decide)]
  rw [List.map_map]
  rfl

/-- The bucket keys of every built index are exactly the lowercase ASCII
letters and the single digit `0`. -/
theorem build_index_keys (steam_apps : List SteamApp) (cfg : MatchingConfig) :
    (build_index steam_apps cfg).letter_index.map (fun q => q.1)
      = ("abcdefghijklmnopqrstuvwxyz0").data := by
  have h0 : initialLetterIndex.map (fun q => q.1)
      = ("abcdefghijklmnopqrstuvwxyz0").data := by decide
  rw [build_index_letter, List.map_map, ← h0]
  exact List.map_congr_left (fun q _ => rfl)

/-- C5 (amended): the bucket keys are exactly `a`–`z` plus `0`; an indexed
entry (surviving the filter, with non-empty normalized title) is a member of a
bucket exactly when the bucket's key equals the normalized title's first
character.  Consequently entries whose normalized title starts with a
lowercase letter or the digit `0` land in the bucket keyed by that character,
while entries starting with any other character — in particular the digits
`1`–`9` — appear in no bucket at all (there is no shared digit catch-all). -/
theorem claim_c5 (steam_apps : List SteamApp) (cfg : MatchingConfig)
    (app : SteamApp)
    (hmem : (app, normalize app.name) ∈ processedApps steam_apps cfg)
    (c : Char) (cs : List Char) (hc : (normalize app.name).data = c :: cs) :
    ((build_index steam_apps cfg).letter_index.map (fun q => q.1)
        = ("abcdefghijklmnopqrstuvwxyz0").data) ∧
    ∀ k bucket, (k, bucket) ∈ (build_index steam_apps cfg).letter_index →
      ((app, normalize app.name) ∈ bucket ↔ k = c) := by
  refine ⟨build_index_keys steam_apps cfg, ?_⟩
  intro k bucket hkb
  rw [build_index_letter] at hkb
  rcases List.mem_map.mp hkb with ⟨q, _, hq⟩
  have hk : q.1 = k := congrArg Prod.fst hq
  have hb : bucket = sortBucket ((processedApps steam_apps cfg).filter
      (fun r => headCharIs q.1 r.2)) := (congrArg Prod.snd hq).symm
  subst hk
  rw [hb]
  unfold sortBucket
  rw [List.mem_mergeSort, List.mem_filter]
  have hhead : headCharIs q.1 (normalize app.name) = decide (c = q.1) := by
    unfold headCharIs
    rw [hc]
  constructor
  · rintro ⟨-, hf⟩
    rw [hhead] at hf
    exact (of_decide_eq_true hf).symm
  · intro hqc
    refine ⟨hmem, ?_⟩
    rw [hhead]
    simp [hqc]

/-- C5 witness: a concrete one-entry catalog whose title normalizes to
"portal"; the characterization applies with first character `p`. -/
theorem claim_c5_witness :
    ((build_index [⟨3, "Portal"⟩] MatchingConfig.default).letter_index.map
        (fun q => q.1) = ("abcdefghijklmnopqrstuvwxyz0").data) ∧
    ∀ k bucket,
      (k, bucket) ∈ (build_index [⟨3, "Portal"⟩] MatchingConfig.default).letter_index →
      (((⟨3, "Portal"⟩ : SteamApp), normalize "Portal") ∈ bucket ↔ k = 'p') :=
  claim_c5 [⟨3, "Portal"⟩] MatchingConfig.default ⟨3, "Portal"⟩ (by decide)
    'p' ("ortal").data (by decide)

/-- C5 counterexample: the catalog entry "7 Wonders" survives the filter and
normalizes to the non-empty title "7 wonders", which starts with the digit
`7`; yet it appears in no letter bucket of the built index — contradicting the
claim that all digit-leading titles share one catch-all bucket. -/
theorem claim_c5_counterexample :
    normalize "7 Wonders" = "7 wonders" ∧
    ((⟨7, "7 Wonders"⟩ : SteamApp), normalize "7 Wonders")
        ∈ processedApps [⟨7, "7 Wonders"⟩] MatchingConfig.default ∧
    ∀ k bucket,
      (k, bucket) ∈ (build_index [⟨7, "7 Wonders"⟩] MatchingConfig.default).letter_index →
      ((⟨7, "7 Wonders"⟩ : SteamApp), normalize "7 Wonders") ∉ bucket := by
  refine ⟨by decide, by decide, ?_⟩
  intro k bucket hkb
  rw [build_index_letter] at hkb
  rcases List.mem_map.mp hkb with ⟨q, hqmem, hq⟩
  have hk : q.1 = k := congrArg Prod.fst hq
  have hb : bucket = sortBucket ((processedApps [⟨7, "7 Wonders"⟩]
      MatchingConfig.default).filter (fun r => headCharIs q.1 r.2)) :=
    (congrArg Prod.snd hq).symm
  subst hk
  rw [hb]
  unfold sortBucket
  rw [List.mem_mergeSort, List.mem_filter]
  rintro ⟨-, hf⟩
  have hq7 : q.1 ≠ '7' := by
    have hall : initialLetterIndex.all (fun r => decide (r.1 ≠ '7')) = true := by decide
    exact of_decide_eq_true (List.all_eq_true.mp hall q hqmem)
  have : headCharIs q.1 (normalize "7 Wonders") = decide ('7' = q.1) := by
    unfold headCharIs
    have : (normalize "7 Wonders").data = '7' :: (" wonders").data := by decide
    rw [this]
  rw [this] at hf
  exact hq7 (of_decide_eq_true hf).symm

/-- C8 witness: the amended contract at a concrete deserializer that fails on
the string "broken". -/
theorem claim_c8_witness :
    read_json_file none (fun s =>
        if s = "[]" then Except.ok ([] : List MergedGame) else Except.error "bad") =
        Except.ok none ∧
      merge_games_stage
        (read_json_file none (fun s =>
          if s = "[]" then Except.ok [] else Except.error "bad")) [] = Except.ok [] ∧
      (∀ content e,
        (fun s => if s = "[]" then Except.ok ([] : List MergedGame)
          else Except.error "bad") content = Except.error e →
        merge_games_stage
          (read_json_file (some content) (fun s =>
            if s = "[]" then Except.ok [] else Except.error "bad")) []
          = Except.error e) :=
  claim_c8 (fun s => if s = "[]" then Except.ok [] else Except.error "bad") []

/-! ## Claim C2: proofs -/

set_option maxRecDepth 8000 in
example : WellFormedL (normalize "halflife 2").data = true := by decide
example : normalize "a-x" = "a10" := by decide
set_option maxRecDepth 8000 in
example : normalize (normalize "a-x") = "a 10" := by decide

theorem wfChars_toLower : ∀ c ∈ wfChars, toLowerC c = c := by
  have h : wfChars.all (fun c => toLowerC c == c) = true := by decide
  intro c hc
  exact eq_of_beq (List.all_eq_true.mp h c hc)

theorem wfChars_punct1 : ∀ c ∈ wfChars, (isWordC c || isWs c || c == '-') = true := by
  have h : wfChars.all (fun c => isWordC c || isWs c || c == '-') = true := by decide
  intro c hc
  exact List.all_eq_true.mp h c hc

theorem wfChars_punct2 : ∀ c ∈ wfChars, (isWordC c || isWs c) = true := by
  have h : wfChars.all (fun c => isWordC c || isWs c) = true := by decide
  intro c hc
  exact List.all_eq_true.mp h c hc

theorem wfChars_not_paren : ∀ c ∈ wfChars, c ≠ '(' := by
  have h : wfChars.all (fun c => !(c == '(')) = true := by decide
  intro c hc
  simpa using List.all_eq_true.mp h c hc

theorem wfChars_not_apo : ∀ c ∈ wfChars, c ≠ apoChar := by
  have h : wfChars.all (fun c => !(c == apoChar)) = true := by decide
  intro c hc
  simpa using List.all_eq_true.mp h c hc

theorem wfChars_not_hyphen : ∀ c ∈ wfChars, c ≠ '-' := by
  have h : wfChars.all (fun c => !(c == '-')) = true := by decide
  intro c hc
  simpa using List.all_eq_true.mp h c hc

/-- In the well-formed inventory, a non-word character is the space. -/
theorem wfChars_nonword_eq_space : ∀ c ∈ wfChars, isWordC c = false → c = ' ' := by
  have h : wfChars.all (fun c => isWordC c || (c == ' ')) = true := by decide
  intro c hc hw
  have := List.all_eq_true.mp h c hc
  rw [hw] at this
  simpa using this

/-- In the well-formed inventory, a whitespace character is the space, and the
space is the only non-word character. -/
theorem wfChars_ws_eq_space : ∀ c ∈ wfChars, isWs c = true → c = ' ' := by
  have h : wfChars.all (fun c => !(isWs c) || (c == ' ')) = true := by decide
  intro c hc hw
  have := List.all_eq_true.mp h c hc
  rw [hw] at this
  simpa using this

theorem space_mem_wfChars : ' ' ∈ wfChars := by decide

/-- The last element of `a ++ [c]`. -/
theorem getLast?_append_singleton (a : List Char) (c : Char) :
    (a ++ [c]).getLast? = some c := by
  induction a with
  | nil => rfl
  | cons x a ih =>
    rw [List.cons_append, List.getLast?_cons, ih]
    rfl

/-- A list's `getLast?` value is one of its elements. -/
theorem mem_of_getLast?_eq_some (l : List Char) (c : Char)
    (h : l.getLast? = some c) : c ∈ l := by
  induction l with
  | nil => cases h
  | cons x t ih =>
    cases t with
    | nil =>
      simp only [List.getLast?_singleton, Option.some_inj] at h
      simp [h]
    | cons y t2 =>
      rw [List.getLast?_cons_cons] at h
      exact List.mem_cons_of_mem x (ih h)

/-- The generic no-match identity for one `replace_all` pass: if the matcher
fails at every position of `y` (with the true left context), the pass copies
the string. -/
theorem replaceScanAux_id (m : Option Char → List Char → Option (List Char × Nat))
    (y : List Char)
    (hnm : ∀ a b : List Char, a ++ b = y → b ≠ [] → m a.getLast? b = none) :
    ∀ (b : List Char) (fuel : Nat) (a : List Char), a ++ b = y →
      replaceScanAux m fuel a.getLast? b = b := by
  intro b
  induction b with
  | nil => intro fuel a _; cases fuel <;> rfl
  | cons c cs ih =>
    intro fuel a hsplit
    cases fuel with
    | zero => rfl
    | succ f =>
      show replaceScanAux m (f + 1) a.getLast? (c :: cs) = c :: cs
      rw [replaceScanAux]
      rw [hnm a (c :: cs) hsplit (by simp)]
      have hlast : (a ++ [c]).getLast? = some c := getLast?_append_singleton a c
      have hrec := ih f (a ++ [c]) (by rw [List.append_assoc]; exact hsplit)
      rw [hlast] at hrec
      rw [hrec]

/-- `replace_all` is the identity when the matcher never fires. -/
theorem replaceScan_id (m : Option Char → List Char → Option (List Char × Nat))
    (y : List Char)
    (hnm : ∀ a b : List Char, a ++ b = y → b ≠ [] → m a.getLast? b = none) :
    replaceScan m y = y := by
  have := replaceScanAux_id m y hnm y y.length [] rfl
  simpa [replaceScan] using this

/-- A successful literal strip decomposes the input. -/
theorem stripLit_eq_append : ∀ (lit l r : List Char),
    stripLit lit l = some r → l = lit ++ r := by
  intro lit
  induction lit with
  | nil => intro l r h; cases h; rfl
  | cons p ps ih =>
    intro l r h
    cases l with
    | nil => cases h
    | cons c cs =>
      rw [stripLit] at h
      by_cases hc : (c == p) = true
      · rw [if_pos hc] at h
        rw [List.cons_append, ← ih cs r h, eq_of_beq hc]
      · rw [if_neg hc] at h
        cases h

theorem startsWithL_refl_append : ∀ (p r : List Char), startsWithL p (p ++ r) = true := by
  intro p
  induction p with
  | nil => intro r; rfl
  | cons c cs ih => intro r; simp [startsWithL, ih]

/-- The substring test accepts a pattern sitting at the head. -/
theorem containsSub_head (lit r : List Char) : containsSub lit (lit ++ r) = true := by
  cases hl : lit ++ r with
  | nil =>
    rcases List.append_eq_nil.mp hl with ⟨rfl, rfl⟩
    rfl
  | cons c cs =>
    rw [containsSub, ← hl, startsWithL_refl_append]
    simp

/-- A decomposed occurrence certifies the substring test. -/
theorem containsSub_of_split : ∀ (a lit r y : List Char), y = a ++ (lit ++ r) →
    containsSub lit y = true := by
  intro a
  induction a with
  | nil =>
    intro lit r y h
    subst h
    rw [List.nil_append]
    exact containsSub_head lit r
  | cons x a2 ih =>
    intro lit r y h
    subst h
    rw [List.cons_append, containsSub, ih lit r _ rfl]
    simp

/-- A substring occurrence puts every pattern character into the string. -/
theorem mem_of_containsSub : ∀ (y pat : List Char), containsSub pat y = true →
    ∀ c ∈ pat, c ∈ y := by
  intro y
  induction y with
  | nil =>
    intro pat h c hc
    cases pat with
    | nil => cases hc
    | cons p ps => cases h
  | cons d ds ih =>
    intro pat h c hc
    rw [containsSub] at h
    simp only [Bool.or_eq_true] at h
    rcases h with hs | hrec
    · -- the pattern occurs at the head
      have hsplit : ∀ (p l : List Char), startsWithL p l = true → ∀ c ∈ p, c ∈ l := by
        intro p
        induction p with
        | nil => intro l _ c hc; cases hc
        | cons q qs ihq =>
          intro l hl c hcq
          cases l with
          | nil => cases hl
          | cons e es =>
            rw [startsWithL, Bool.and_eq_true] at hl
            rcases List.mem_cons.mp hcq with rfl | hmem
            · rw [eq_of_beq hl.1]
              exact List.mem_cons_self _ _
            · exact List.mem_cons_of_mem _ (ihq es hl.2 c hmem)
      exact hsplit pat (d :: ds) hs c hc
    · exact List.mem_cons_of_mem _ (ih pat hrec c hc)

/-- Four consecutive digits anywhere make `hasFourDigits` true. -/
theorem hasFourDigits_append : ∀ (pre : List Char) (d1 d2 d3 d4 : Char)
    (t : List Char), isDigitC d1 = true → isDigitC d2 = true →
    isDigitC d3 = true → isDigitC d4 = true →
    hasFourDigits (pre ++ d1 :: d2 :: d3 :: d4 :: t) = true := by
  intro pre
  induction pre with
  | nil =>
    intro d1 d2 d3 d4 t h1 h2 h3 h4
    simp [hasFourDigits, startsWith3Digits, h1, h2, h3, h4]
  | cons c pre2 ih =>
    intro d1 d2 d3 d4 t h1 h2 h3 h4
    rw [List.cons_append, hasFourDigits, ih d1 d2 d3 d4 t h1 h2 h3 h4]
    simp

theorem digitsIsolated_tail (c : Char) (t : List Char)
    (h : digitsIsolated (c :: t) = true) : digitsIsolated t = true := by
  cases t with
  | nil => rfl
  | cons b r =>
    rw [digitsIsolated, Bool.and_eq_true] at h
    exact h.2

/-- The pair condition of any two adjacent characters follows from
`digitsIsolated`. -/
theorem digitsIsolated_pair : ∀ (pre : List Char) (a b : Char) (t y : List Char),
    y = pre ++ a :: b :: t → digitsIsolated y = true → pairOkB a b = true := by
  intro pre
  induction pre with
  | nil =>
    intro a b t y h hd
    subst h
    rw [List.nil_append, digitsIsolated, Bool.and_eq_true] at hd
    exact hd.1
  | cons c pre2 ih =>
    intro a b t y h hd
    subst h
    rw [List.cons_append] at hd
    exact ih a b t _ rfl (digitsIsolated_tail _ _ hd)

theorem digitsIsolated_dropWhile (p : Char → Bool) :
    ∀ l : List Char, digitsIsolated l = true →
      digitsIsolated (l.dropWhile p) = true := by
  intro l
  induction l with
  | nil => intro h; exact h
  | cons c cs ih =>
    intro h
    rw [List.dropWhile_cons]
    by_cases hp : p c = true
    · rw [if_pos hp]
      exact ih (digitsIsolated_tail _ _ h)
    · rw [if_neg hp]
      exact h

/-- Dropping the matched head run reaches `dropWhile`. -/
theorem drop_length_takeWhile (p : Char → Bool) :
    ∀ l : List Char, l.drop (l.takeWhile p).length = l.dropWhile p := by
  intro l
  induction l with
  | nil => rfl
  | cons c cs ih =>
    rw [List.takeWhile_cons, List.dropWhile_cons]
    by_cases hp : p c = true
    · rw [if_pos hp, if_pos hp, List.length_cons, List.drop_succ_cons]
      exact ih
    · rw [if_neg hp, if_neg hp]
      rfl

/-- The head of a `dropWhile` residue fails the predicate. -/
theorem head_dropWhile_false (p : Char → Bool) :
    ∀ (l : List Char) (b : Char) (t : List Char),
    l.dropWhile p = b :: t → p b = false := by
  intro l
  induction l with
  | nil => intro b t h; cases h
  | cons c cs ih =>
    intro b t h
    rw [List.dropWhile_cons] at h
    by_cases hp : p c = true
    · rw [if_pos hp] at h
      exact ih b t h
    · rw [if_neg hp] at h
      cases h
      simpa using hp

/-- Shifting a whitespace-free block into the accumulator of `splitWsAux`. -/
theorem splitWsAux_nonws : ∀ (w rest acc : List Char),
    (∀ c ∈ w, isWs c = false) →
    splitWsAux (w ++ rest) acc = splitWsAux rest (w.reverse ++ acc) := by
  intro w
  induction w with
  | nil => intro rest acc _; simp
  | cons c w2 ih =>
    intro rest acc hw
    rw [List.cons_append, splitWsAux,
      if_neg (by rw [hw c (List.mem_cons_self c w2)]; simp)]
    rw [ih rest (c :: acc) (fun d hd => hw d (List.mem_cons_of_mem c hd))]
    rw [List.reverse_cons, List.append_assoc]
    rfl

theorem splitWsAux_ws (c : Char) (rest acc : List Char) (hc : isWs c = true) :
    splitWsAux (c :: rest) acc
      = if acc.isEmpty then splitWsAux rest [] else acc.reverse :: splitWsAux rest [] := by
  rw [splitWsAux, if_pos hc]

theorem splitWs_ws_cons (c : Char) (l : List Char) (hc : isWs c = true) :
    splitWs (c :: l) = splitWs l := by
  unfold splitWs
  rw [splitWsAux_ws c l [] hc]
  rfl

/-- Words produced by `splitWsAux` are non-empty and whitespace-free, given an
accumulator of non-whitespace characters. -/
theorem splitWsAux_words : ∀ (l acc : List Char), (∀ c ∈ acc, isWs c = false) →
    ∀ w ∈ splitWsAux l acc, w ≠ [] ∧ ∀ c ∈ w, isWs c = false := by
  intro l
  induction l with
  | nil =>
    intro acc hacc w hw
    rw [splitWsAux] at hw
    by_cases he : acc.isEmpty = true
    · rw [if_pos he] at hw
      cases hw
    · rw [if_neg he] at hw
      rw [List.mem_singleton] at hw
      subst hw
      refine ⟨fun hrev => he ?_, fun c hc => hacc c (List.mem_reverse.mp hc)⟩
      rw [List.reverse_eq_nil_iff] at hrev
      rw [hrev]
      rfl
  | cons c cs ih =>
    intro acc hacc w hw
    rw [splitWsAux] at hw
    by_cases hc : isWs c = true
    · rw [if_pos hc] at hw
      by_cases he : acc.isEmpty = true
      · rw [if_pos he] at hw
        exact ih [] (by simp) w hw
      · rw [if_neg he] at hw
        rcases List.mem_cons.mp hw with rfl | hw2
        · refine ⟨fun hrev => he ?_, fun d hd => hacc d (List.mem_reverse.mp hd)⟩
          rw [List.reverse_eq_nil_iff] at hrev
          rw [hrev]
          rfl
        · exact ih [] (by simp) w hw2
    · rw [if_neg hc] at hw
      refine ih (c :: acc) ?_ w hw
      intro d hd
      rcases List.mem_cons.mp hd with rfl | hd2
      · simpa using hc
      · exact hacc d hd2

theorem splitWs_words (l : List Char) :
    ∀ w ∈ splitWs l, w ≠ [] ∧ ∀ c ∈ w, isWs c = false :=
  splitWsAux_words l [] (by simp)

/-- Characters of the words of `splitWsAux` come from the input or the
accumulator. -/
theorem splitWsAux_chars : ∀ (l acc : List Char) (w : List Char),
    w ∈ splitWsAux l acc → ∀ c ∈ w, c ∈ l ∨ c ∈ acc := by
  intro l
  induction l with
  | nil =>
    intro acc w hw c hc
    rw [splitWsAux] at hw
    by_cases he : acc.isEmpty = true
    · rw [if_pos he] at hw
      cases hw
    · rw [if_neg he] at hw
      rw [List.mem_singleton] at hw
      subst hw
      exact Or.inr (List.mem_reverse.mp hc)
  | cons d ds ih =>
    intro acc w hw c hc
    rw [splitWsAux] at hw
    by_cases hd : isWs d = true
    · rw [if_pos hd] at hw
      by_cases he : acc.isEmpty = true
      · rw [if_pos he] at hw
        rcases ih [] w hw c hc with h | h
        · exact Or.inl (List.mem_cons_of_mem d h)
        · cases h
      · rw [if_neg he] at hw
        rcases List.mem_cons.mp hw with rfl | hw2
        · exact Or.inr (List.mem_reverse.mp hc)
        · rcases ih [] w hw2 c hc with h | h
          · exact Or.inl (List.mem_cons_of_mem d h)
          · cases h
    · rw [if_neg hd] at hw
      rcases ih (d :: acc) w hw c hc with h | h
      · exact Or.inl (List.mem_cons_of_mem d h)
      · rcases List.mem_cons.mp h with rfl | h2
        · exact Or.inl (List.mem_cons_self c ds)
        · exact Or.inr h2

/-- A whitespace-free block flanked by whitespace on the right (or at the end)
is a word of `splitWs` when scanned from the empty accumulator. -/
theorem word_mem_splitWs_head (w b : List Char) (hw : w ≠ [])
    (hwf : ∀ c ∈ w, isWs c = false)
    (hb : b = [] ∨ ∃ cb b2, b = cb :: b2 ∧ isWs cb = true) :
    w ∈ splitWsAux (w ++ b) [] := by
  rw [splitWsAux_nonws w b [] hwf, List.append_nil]
  rcases hb with rfl | ⟨cb, b2, rfl, hcb⟩
  · rw [splitWsAux]
    rw [if_neg (by simpa using hw)]
    rw [List.mem_singleton, List.reverse_reverse]
  · rw [splitWsAux_ws cb b2 w.reverse hcb]
    rw [if_neg (by simpa using hw)]
    rw [List.reverse_reverse]
    exact List.mem_cons_self w _

/-- The word-extraction lemma: a whitespace-free block preceded by whitespace
(or the start) and followed by whitespace (or the end) is a word of
`splitWs`. -/
theorem word_mem_splitWs : ∀ (a : List Char) (w b : List Char) (acc : List Char),
    (a = [] ∨ ∃ a2 ca, a = a2 ++ [ca] ∧ isWs ca = true) →
    (a = [] → acc = []) →
    w ≠ [] → (∀ c ∈ w, isWs c = false) →
    (b = [] ∨ ∃ cb b2, b = cb :: b2 ∧ isWs cb = true) →
    w ∈ splitWsAux (a ++ w ++ b) acc := by
  intro a
  induction a with
  | nil =>
    intro w b acc _ hacc hw hwf hb
    rw [hacc rfl, List.nil_append]
    exact word_mem_splitWs_head w b hw hwf hb
  | cons c a2 ih =>
    intro w b acc hpre _ hw hwf hb
    rcases hpre with h | ⟨a3, ca, ha, hca⟩
    · cases h
    · by_cases ha2 : a2 = []
      · subst ha2
        have hc : c = ca := by
          cases a3 with
          | nil => simpa using ha
          | cons x a4 =>
            exfalso
            rw [List.cons_append] at ha
            have := (List.cons.injEq _ _ _ _ ▸ ha).2
            exact absurd this.symm (by simp)
        subst hc
        simp only [List.cons_append, List.nil_append]
        rw [splitWsAux_ws _ _ _ hca]
        by_cases he : acc.isEmpty = true
        · rw [if_pos he]
          exact word_mem_splitWs_head w b hw hwf hb
        · rw [if_neg he]
          exact List.mem_cons_of_mem _ (word_mem_splitWs_head w b hw hwf hb)
      · have hpre2 : a2 = [] ∨ ∃ a4 ca2, a2 = a4 ++ [ca2] ∧ isWs ca2 = true := by
          right
          cases a3 with
          | nil =>
            exfalso
            apply ha2
            have : c :: a2 = [ca] := by simpa using ha
            exact ((List.cons.injEq _ _ _ _ ▸ this).2)
          | cons x a4 =>
            rw [List.cons_append] at ha
            exact ⟨a4, ca, ((List.cons.injEq _ _ _ _ ▸ ha).2), hca⟩
        simp only [List.cons_append]
        rw [splitWsAux]
        by_cases hc : isWs c = true
        · rw [if_pos hc]
          by_cases he : acc.isEmpty = true
          · rw [if_pos he]
            exact ih w b [] hpre2 (fun _ => rfl) hw hwf hb
          · rw [if_neg he]
            exact List.mem_cons_of_mem _ (ih w b [] hpre2 (fun _ => rfl) hw hwf hb)
        · rw [if_neg hc]
          exact ih w b (c :: acc) hpre2 (fun h => absurd h ha2) hw hwf hb

theorem length_dropWhile_le (p : Char → Bool) :
    ∀ l : List Char, (l.dropWhile p).length ≤ l.length := by
  intro l
  induction l with
  | nil => exact Nat.le_refl 0
  | cons c cs ih =>
    rw [List.dropWhile_cons]
    by_cases hp : p c = true
    · rw [if_pos hp]
      exact Nat.le_succ_of_le ih
    · rw [if_neg hp]

theorem wfChars_digit_not_ws : ∀ c ∈ wfChars, isDigitC c = true → isWs c = false := by
  have h : wfChars.all (fun c => !isDigitC c || !isWs c) = true := by decide
  intro c hc hd
  have := List.all_eq_true.mp h c hc
  rw [hd] at this
  simpa using this

theorem wfChars_ws_or_word : ∀ c ∈ wfChars, isWs c = true ∨ isWordC c = true := by
  have h : wfChars.all (fun c => isWs c || isWordC c) = true := by decide
  intro c hc
  have h2 := List.all_eq_true.mp h c hc
  simp only [Bool.or_eq_true] at h2
  exact h2

theorem replaceScanAux_nil (m : Option Char → List Char → Option (List Char × Nat))
    (fuel : Nat) (prev : Option Char) : replaceScanAux m fuel prev [] = [] := by
  cases fuel <;> rfl

theorem splitWsAux_ws_nil (c : Char) (rest : List Char) (hc : isWs c = true) :
    splitWsAux (c :: rest) [] = splitWsAux rest [] := by
  rw [splitWsAux, if_pos hc]
  rfl

theorem splitWsAux_nil_acc_ne (acc : List Char) (hne : acc.isEmpty = false) :
    splitWsAux [] acc = [acc.reverse] := by
  rw [splitWsAux, if_neg (by simp [hne])]

theorem splitWsAux_ws_acc_ne (c : Char) (rest acc : List Char) (hc : isWs c = true)
    (hne : acc.isEmpty = false) :
    splitWsAux (c :: rest) acc = acc.reverse :: splitWsAux rest [] := by
  rw [splitWsAux, if_pos hc, if_neg (by simp [hne])]

theorem splitWsAux_nonws_cons (c : Char) (rest acc : List Char) (hc : isWs c = false) :
    splitWsAux (c :: rest) acc = splitWsAux rest (c :: acc) := by
  rw [splitWsAux, if_neg (by simp [hc])]

/-- Unfolding one digit-run step of the number-spacing pass. -/
theorem replaceScanAux_ns_digit (fuel : Nat) (prev : Option Char) (c : Char)
    (cs : List Char) (hd : isDigitC c = true) :
    replaceScanAux numberSpaceMatch (fuel + 1) prev (c :: cs)
      = ' ' :: (((c :: cs.takeWhile isDigitC) ++ [' '])
          ++ replaceScanAux numberSpaceMatch fuel
            ((List.take (c :: cs.takeWhile isDigitC).length (c :: cs)).getLast?)
            (cs.dropWhile isDigitC)) := by
  rw [replaceScanAux]
  have hm : numberSpaceMatch prev (c :: cs)
      = some (' ' :: ((c :: cs).takeWhile isDigitC ++ [' ']),
          ((c :: cs).takeWhile isDigitC).length) := by
    unfold numberSpaceMatch
    simp [hd]
  rw [hm]
  simp only [List.takeWhile_cons, if_pos hd, List.length_cons, Nat.add_sub_cancel,
    drop_length_takeWhile, List.cons_append, List.append_assoc]

/-- Unfolding one non-digit step of the number-spacing pass. -/
theorem replaceScanAux_ns_other (fuel : Nat) (prev : Option Char) (c : Char)
    (cs : List Char) (hd : isDigitC c = false) :
    replaceScanAux numberSpaceMatch (fuel + 1) prev (c :: cs)
      = c :: replaceScanAux numberSpaceMatch fuel (some c) cs := by
  rw [replaceScanAux]
  have hm : numberSpaceMatch prev (c :: cs) = none := by
    unfold numberSpaceMatch
    simp [hd]
  rw [hm]

/-- The number-spacing pass only adds spaces. -/
theorem ns_chars : ∀ (fuel : Nat) (l : List Char) (prev : Option Char),
    ∀ c ∈ replaceScanAux numberSpaceMatch fuel prev l, c ∈ l ∨ c = ' ' := by
  intro fuel
  induction fuel with
  | zero => intro l prev c hc; exact Or.inl hc
  | succ f ih =>
    intro l prev c hc
    cases l with
    | nil => cases hc
    | cons d ds =>
      by_cases hd : isDigitC d = true
      · rw [replaceScanAux_ns_digit f prev d ds hd] at hc
        rcases List.mem_cons.mp hc with rfl | hc2
        · exact Or.inr rfl
        · rcases List.mem_append.mp hc2 with hc3 | hc3
          · rcases List.mem_append.mp hc3 with hc4 | hc4
            · rcases List.mem_cons.mp hc4 with rfl | hc5
              · exact Or.inl (List.mem_cons_self _ _)
              · exact Or.inl (List.mem_cons_of_mem _
                  ((List.takeWhile_sublist _).subset hc5))
            · rw [List.mem_singleton] at hc4
              exact Or.inr hc4
          · rcases ih (ds.dropWhile isDigitC) _ c hc3 with h | h
            · exact Or.inl (List.mem_cons_of_mem _
                ((List.dropWhile_sublist _).subset h))
            · exact Or.inr h
      · have hdf : isDigitC d = false := by simpa using hd
        rw [replaceScanAux_ns_other f prev d ds hdf] at hc
        rcases List.mem_cons.mp hc with rfl | hc2
        · exact Or.inl (List.mem_cons_self _ _)
        · rcases ih ds (some d) c hc2 with h | h
          · exact Or.inl (List.mem_cons_of_mem _ h)
          · exact Or.inr h

/-- After a digit run, `digitsIsolated` forbids a word character. -/
theorem iso_run_head : ∀ (tw : List Char) (d : Char) (r : Char) (r2 : List Char),
    isDigitC d = true → (∀ c ∈ tw, isDigitC c = true) →
    digitsIsolated (d :: (tw ++ r :: r2)) = true → isDigitC r = false →
    isWordC r = false := by
  intro tw
  induction tw with
  | nil =>
    intro d r r2 hd _ hiso hr
    rw [List.nil_append, digitsIsolated, Bool.and_eq_true] at hiso
    have hp := hiso.1
    unfold pairOkB at hp
    rw [Bool.and_eq_true] at hp
    have h1 := hp.1
    rw [hd, hr] at h1
    simpa using h1
  | cons t tw2 ih =>
    intro d r r2 hd htw hiso hr
    rw [List.cons_append] at hiso
    exact ih t r r2 (htw t (List.mem_cons_self t tw2))
      (fun c hc => htw c (List.mem_cons_of_mem t hc))
      (digitsIsolated_tail d _ hiso) hr

/-- The number-spacing pass preserves the word decomposition of a string whose
digit runs are isolated. -/
theorem ns_splitWsAux : ∀ (fuel : Nat) (l : List Char) (prev : Option Char)
    (acc : List Char),
    l.length ≤ fuel →
    (∀ c ∈ l, c ∈ wfChars) →
    digitsIsolated l = true →
    (∀ d ds, l = d :: ds → isDigitC d = true → acc = []) →
    splitWsAux (replaceScanAux numberSpaceMatch fuel prev l) acc = splitWsAux l acc := by
  intro fuel
  induction fuel with
  | zero =>
    intro l prev acc hlen _ _ _
    have hnil : l = [] := List.eq_nil_of_length_eq_zero (Nat.le_zero.mp hlen)
    subst hnil
    rfl
  | succ f ih =>
    intro l prev acc hlen hchars hiso hhead
    cases l with
    | nil => rfl
    | cons d ds =>
      by_cases hd : isDigitC d = true
      · have hacc : acc = [] := hhead d ds rfl hd
        subst hacc
        rw [replaceScanAux_ns_digit f prev d ds hd]
        have htw : ∀ c ∈ d :: ds.takeWhile isDigitC, isDigitC c = true := by
          intro c hc
          rcases List.mem_cons.mp hc with rfl | hc2
          · exact hd
          · exact List.mem_takeWhile_imp hc2
        have htwchars : ∀ c ∈ d :: ds.takeWhile isDigitC, c ∈ wfChars := by
          intro c hc
          rcases List.mem_cons.mp hc with rfl | hc2
          · exact hchars _ (List.mem_cons_self _ _)
          · exact hchars c (List.mem_cons_of_mem d ((List.takeWhile_sublist _).subset hc2))
        have htwnws : ∀ c ∈ d :: ds.takeWhile isDigitC, isWs c = false :=
          fun c hc => wfChars_digit_not_ws c (htwchars c hc) (htw c hc)
        have htwne : ((d :: ds.takeWhile isDigitC).reverse).isEmpty = false := by
          simp
        -- the spaced run and its tail
        rw [splitWsAux_ws_nil _ _ (by decide)]
        rw [List.append_assoc, List.singleton_append]
        rw [splitWsAux_nonws _ _ [] htwnws, List.append_nil]
        rw [splitWsAux_ws_acc_ne _ _ _ (by decide) htwne, List.reverse_reverse]
        have hrest := ih (ds.dropWhile isDigitC)
          ((List.take (d :: ds.takeWhile isDigitC).length (d :: ds)).getLast?) []
          (Nat.le_trans (length_dropWhile_le _ ds) (Nat.le_of_succ_le_succ hlen))
          (fun c hc => hchars c (List.mem_cons_of_mem d ((List.dropWhile_sublist _).subset hc)))
          (digitsIsolated_dropWhile _ ds (digitsIsolated_tail d ds hiso))
          (fun _ _ _ _ => rfl)
        rw [hrest]
        -- right-hand side
        have hsplit : d :: ds = (d :: ds.takeWhile isDigitC) ++ ds.dropWhile isDigitC := by
          rw [List.cons_append, List.takeWhile_append_dropWhile]
        conv_rhs => rw [hsplit]
        rw [splitWsAux_nonws _ _ [] htwnws, List.append_nil]
        cases hresteq : ds.dropWhile isDigitC with
        | nil =>
          rw [splitWsAux_nil_acc_ne _ htwne, List.reverse_reverse]
          rfl
        | cons r r2 =>
          have hrdig : isDigitC r = false := head_dropWhile_false _ ds r r2 hresteq
          have hrmem : r ∈ ds := by
            have : r ∈ ds.dropWhile isDigitC := by
              rw [hresteq]
              exact List.mem_cons_self r r2
            exact (List.dropWhile_sublist _).subset this
          have hrchars : r ∈ wfChars := hchars r (List.mem_cons_of_mem d hrmem)
          have hiso2 : digitsIsolated (d :: (ds.takeWhile isDigitC ++ r :: r2)) = true := by
            rw [← hresteq, List.takeWhile_append_dropWhile]
            exact hiso
          have hriso : isWordC r = false :=
            iso_run_head (ds.takeWhile isDigitC) d r r2 hd
              (fun c hc => List.mem_takeWhile_imp hc) hiso2 hrdig
          have hrws : isWs r = true := by
            rcases wfChars_ws_or_word r hrchars with h | h
            · exact h
            · rw [hriso] at h
              cases h
          rw [splitWsAux_ws_acc_ne r r2 _ hrws htwne, List.reverse_reverse]
          rw [splitWsAux_ws_nil r r2 hrws]
      · have hdf : isDigitC d = false := by simpa using hd
        rw [replaceScanAux_ns_other f prev d ds hdf]
        have hdchars := hchars d (List.mem_cons_self d ds)
        by_cases hws : isWs d = true
        · have hrec := ih ds (some d) []
            (Nat.le_of_succ_le_succ hlen)
            (fun c hc => hchars c (List.mem_cons_of_mem d hc))
            (digitsIsolated_tail d ds hiso) (fun _ _ _ _ => rfl)
          by_cases he : acc.isEmpty = true
          · have hanil : acc = [] := by
              cases acc with
              | nil => rfl
              | cons x xs => cases he
            subst hanil
            rw [splitWsAux_ws_nil _ _ hws, splitWsAux_ws_nil _ _ hws, hrec]
          · have he2 : acc.isEmpty = false := by simpa using he
            rw [splitWsAux_ws_acc_ne _ _ _ hws he2, splitWsAux_ws_acc_ne _ _ _ hws he2, hrec]
        · have hwsf : isWs d = false := by simpa using hws
          rw [splitWsAux_nonws_cons _ _ _ hwsf, splitWsAux_nonws_cons _ _ _ hwsf]
          refine ih ds (some d) (d :: acc) (Nat.le_of_succ_le_succ hlen)
            (fun c hc => hchars c (List.mem_cons_of_mem d hc))
            (digitsIsolated_tail d ds hiso) ?_
          intro e es hes hdig
          exfalso
          have hdword : isWordC d = true := by
            rcases wfChars_ws_or_word d hdchars with h | h
            · rw [hwsf] at h
              cases h
            · exact h
          have hpair := digitsIsolated_pair [] d e es (d :: ds) (by rw [hes]; rfl) hiso
          unfold pairOkB at hpair
          rw [Bool.and_eq_true] at hpair
          have h2 := hpair.2
          rw [hdword, hdf, hdig] at h2
          simp at h2

/-- The year matcher returns `none` when the whitespace-stripped suffix does
not present an optional parenthesis followed by four digits. -/
theorem yearMatch_eq_none_of (prev : Option Char) (b : List Char)
    (hnp : ∀ (t : List Char), b.dropWhile isWs ≠ '(' :: t)
    (hnd : ∀ d1 d2 d3 d4 t, b.dropWhile isWs = d1 :: d2 :: d3 :: d4 :: t →
      (isDigitC d1 && isDigitC d2 && isDigitC d3 && isDigitC d4) = false) :
    yearMatch prev b = none := by
  unfold yearMatch
  dsimp only
  split
  · rename_i x d1 d2 d3 d4 tail heq
    split at heq
    · rename_i t hp
      exact absurd hp (hnp t)
    · dsimp only at heq
      rw [hnd d1 d2 d3 d4 tail heq]
      simp
  · rfl

/-- Inversion of a successful status match: the literal sits right after the
leading whitespace. -/
theorem statusMatch_some (lit : List Char) (prev : Option Char) (b : List Char)
    (p : List Char × Nat) (h : statusMatch lit prev b = some p) :
    ∃ r, stripLit lit (b.dropWhile isWs) = some r := by
  unfold statusMatch at h
  dsimp only at h
  split at h
  · rename_i r heq
    exact ⟨r, heq⟩
  · cases h

/-- Inversion of a successful possessive match: either an apostrophe heads the
suffix, or whitespace followed by a boundary-delimited `s`. -/
theorem possessiveMatch_some (prev : Option Char) (b : List Char)
    (p : List Char × Nat) (h : possessiveMatch prev b = some p) :
    (∃ t, b = apoChar :: t) ∨
    (∃ c t, b = c :: t ∧ isWs c = true ∧
      ∃ t2, b.dropWhile isWs = 's' :: t2 ∧ rightBoundary 's' t2 = true) := by
  unfold possessiveMatch at h
  split at h
  · cases h
  · rename_i c t
    by_cases hc : (c == apoChar) = true
    · exact Or.inl ⟨t, by rw [eq_of_beq hc]⟩
    · rw [if_neg hc] at h
      dsimp only at h
      split at h
      · rename_i hw
        split at h
        · rename_i t2 heq
          split at h
          · rename_i hrb
            exact Or.inr ⟨c, t, rfl, hw, t2, heq, hrb⟩
          · cases h
        · cases h
      · cases h

/-- Inversion of a successful compound match (`half[\s-]life` and friends):
left word boundary, the first word, a whitespace-or-hyphen separator, the
second word, and a right word boundary. -/
theorem compoundMatch_some (w1 w2 repl : List Char) (prev : Option Char)
    (b : List Char) (p : List Char × Nat)
    (h : compoundMatch w1 w2 repl prev b = some p) :
    leftOkPrev prev = true ∧
    ∃ sep rest3, b = w1 ++ sep :: rest3 ∧ (isWs sep = true ∨ sep = '-') ∧
      ∃ r4, stripLit w2 rest3 = some r4 ∧
        (r4 = [] ∨ ∃ c t, r4 = c :: t ∧ isWordC c = false) := by
  unfold compoundMatch at h
  split at h
  · rename_i hlo
    split at h
    · rename_i rest heq
      split at h
      · cases h
      · rename_i sep rest2
        split at h
        · rename_i hsep
          have hsep2 : isWs sep = true ∨ sep = '-' := by
            simp only [Bool.or_eq_true] at hsep
            rcases hsep with h1 | h1
            · exact Or.inl h1
            · exact Or.inr (eq_of_beq h1)
          have hb : b = w1 ++ sep :: rest2 := stripLit_eq_append w1 b _ heq
          split at h
          · rename_i rest3 heq2
            split at h
            · exact ⟨hlo, sep, rest2, hb, hsep2, [], heq2, Or.inl rfl⟩
            · rename_i c t
              split at h
              · cases h
              · rename_i hword
                exact ⟨hlo, sep, rest2, hb, hsep2, c :: t, heq2,
                  Or.inr ⟨c, t, rfl, by simpa using hword⟩⟩
          · cases h
        · cases h
    · cases h
  · cases h

/-- Inversion of a successful roman-numeral word match. -/
theorem romanWordMatch_some (w repl : List Char) (prev : Option Char)
    (b : List Char) (p : List Char × Nat)
    (h : romanWordMatch w repl prev b = some p) :
    leftOkPrev prev = true ∧
    ∃ r, stripLitCI w b = some r ∧
      (r = [] ∨ ∃ c t, r = c :: t ∧ isWordC c = false) := by
  unfold romanWordMatch at h
  split at h
  · rename_i hlo
    split at h
    · rename_i rest heq
      split at h
      · exact ⟨hlo, [], heq, Or.inl rfl⟩
      · rename_i c t
        split at h
        · cases h
        · rename_i hword
          exact ⟨hlo, c :: t, heq, Or.inr ⟨c, t, rfl, by simpa using hword⟩⟩
    · cases h
  · cases h

/-- Inversion of a successful plain substring match. -/
theorem substMatch_some (pat repl : List Char) (prev : Option Char)
    (b : List Char) (p : List Char × Nat)
    (h : substMatch pat repl prev b = some p) :
    ∃ r, b = pat ++ r := by
  unfold substMatch at h
  split at h
  · rename_i r heq
    exact ⟨r, stripLit_eq_append pat b r heq⟩
  · cases h

/-- A successful case-insensitive strip of a lowercase literal from a string of
case-fixed characters decomposes the input literally. -/
theorem stripLitCI_eq_append : ∀ (lit l r : List Char),
    (∀ c ∈ l, toLowerC c = c) → (∀ p ∈ lit, toLowerC p = p) →
    stripLitCI lit l = some r → l = lit ++ r := by
  intro lit
  induction lit with
  | nil => intro l r _ _ h; cases h; rfl
  | cons p ps ih =>
    intro l r hl hp h
    cases l with
    | nil => cases h
    | cons c cs =>
      rw [stripLitCI] at h
      by_cases hc : (toLowerC c == toLowerC p) = true
      · rw [if_pos hc] at h
        have hcp : c = p := by
          have := eq_of_beq hc
          rw [hl c (List.mem_cons_self c cs), hp p (List.mem_cons_self p ps)] at this
          exact this
        rw [List.cons_append, hcp,
          ← ih cs r (fun d hd => hl d (List.mem_cons_of_mem c hd))
            (fun d hd => hp d (List.mem_cons_of_mem p hd)) h]
      · rw [if_neg hc] at h
        cases h

/-- Every non-empty list ends in its last element. -/
theorem exists_last {α : Type} (l : List α) (h : l ≠ []) :
    ∃ l2 c, l = l2 ++ [c] ∧ c ∈ l :=
  ⟨l.dropLast, l.getLast h, (List.dropLast_append_getLast h).symm, List.getLast_mem h⟩

/-- With well-formed characters, a left word boundary at the end of the prefix
means the prefix is empty or ends in whitespace. -/
theorem left_prefix_ws (y a b : List Char) (hab : a ++ b = y)
    (hchars : ∀ c ∈ y, c ∈ wfChars) (hlo : leftOkPrev a.getLast? = true) :
    a = [] ∨ ∃ a2 ca, a = a2 ++ [ca] ∧ isWs ca = true := by
  by_cases ha : a = []
  · exact Or.inl ha
  · right
    obtain ⟨a2, ca, haeq, hmem⟩ := exists_last a ha
    refine ⟨a2, ca, haeq, ?_⟩
    have hgl : a.getLast? = some ca := by rw [haeq]; exact getLast?_append_singleton a2 ca
    rw [hgl] at hlo
    unfold leftOkPrev at hlo
    have hcw : isWordC ca = false := by simpa using hlo
    have hcay : ca ∈ y := by rw [← hab]; exact List.mem_append_left b hmem
    have := wfChars_nonword_eq_space ca (hchars ca hcay) hcw
    rw [this]
    decide

/-- With well-formed characters, a residue that is empty or starts with a
non-word character is empty or starts with whitespace. -/
theorem nonword_suffix_cond (y : List Char) (hchars : ∀ c ∈ y, c ∈ wfChars)
    (r : List Char) (hsub : ∀ c ∈ r, c ∈ y)
    (hc : r = [] ∨ ∃ c t, r = c :: t ∧ isWordC c = false) :
    r = [] ∨ ∃ cb b2, r = cb :: b2 ∧ isWs cb = true := by
  rcases hc with rfl | ⟨c, t, rfl, hw⟩
  · exact Or.inl rfl
  · right
    refine ⟨c, t, rfl, ?_⟩
    have := wfChars_nonword_eq_space c (hchars c (hsub c (List.mem_cons_self c t))) hw
    rw [this]
    decide

/-- The year-removal pass is the identity on strings over the well-formed
inventory without four consecutive digits. -/
theorem yearScan_id (y : List Char) (hchars : ∀ c ∈ y, c ∈ wfChars)
    (h4 : hasFourDigits y = false) : replaceScan yearMatch y = y := by
  apply replaceScan_id
  intro a b hab hbne
  apply yearMatch_eq_none_of
  · intro t hp
    have hpmem : '(' ∈ b := by
      have : '(' ∈ b.dropWhile isWs := by rw [hp]; exact List.mem_cons_self _ _
      exact (List.dropWhile_sublist _).subset this
    have hiny : '(' ∈ y := by rw [← hab]; exact List.mem_append_right a hpmem
    have h1 := hchars '(' hiny
    have h2 : '(' ∉ wfChars := by decide
    exact h2 h1
  · intro d1 d2 d3 d4 t hd
    by_cases hg : (isDigitC d1 && isDigitC d2 && isDigitC d3 && isDigitC d4) = true
    · exfalso
      simp only [Bool.and_eq_true] at hg
      obtain ⟨⟨⟨h1, h2⟩, h3⟩, h4d⟩ := hg
      have hb : b = b.takeWhile isWs ++ (d1 :: d2 :: d3 :: d4 :: t) := by
        rw [← hd, List.takeWhile_append_dropWhile]
      have hy : y = (a ++ b.takeWhile isWs) ++ (d1 :: d2 :: d3 :: d4 :: t) := by
        rw [List.append_assoc, ← hb, hab]
      rw [hy] at h4
      rw [hasFourDigits_append _ d1 d2 d3 d4 t h1 h2 h3 h4d] at h4
      cases h4
    · simpa using hg

/-- A status-literal pass is the identity when the literal does not occur. -/
theorem statusScan_id (lit y : List Char)
    (hcs : containsSub lit y = false) : replaceScan (statusMatch lit) y = y := by
  apply replaceScan_id
  intro a b hab hbne
  cases hm : statusMatch lit a.getLast? b with
  | none => rfl
  | some p =>
    exfalso
    obtain ⟨r, hr⟩ := statusMatch_some lit a.getLast? b p hm
    have hdec : b.dropWhile isWs = lit ++ r := stripLit_eq_append lit _ r hr
    have hy : y = (a ++ b.takeWhile isWs) ++ (lit ++ r) := by
      rw [List.append_assoc, ← hdec, List.takeWhile_append_dropWhile, hab]
    rw [containsSub_of_split _ lit r y hy] at hcs
    cases hcs

/-- The possessive pass is the identity on well-formed strings that avoid the
lone word `s`. -/
theorem possessiveScan_id (y : List Char) (hchars : ∀ c ∈ y, c ∈ wfChars)
    (hnw : ∀ v ∈ splitWs y, v ≠ ['s']) : replaceScan possessiveMatch y = y := by
  apply replaceScan_id
  intro a b hab hbne
  cases hm : possessiveMatch a.getLast? b with
  | none => rfl
  | some p =>
    exfalso
    rcases possessiveMatch_some a.getLast? b p hm with
      ⟨t, hbt⟩ | ⟨c, t, hbt, hcw, t2, hdrop, hrb⟩
    · have hiny : apoChar ∈ y := by
        rw [← hab, hbt]
        exact List.mem_append_right a (List.mem_cons_self _ _)
      have h1 := hchars apoChar hiny
      have h2 : apoChar ∉ wfChars := by decide
      exact h2 h1
    · have hsp : b.takeWhile isWs = c :: t.takeWhile isWs := by
        rw [hbt, List.takeWhile_cons, if_pos hcw]
      have hspws : ∀ d ∈ b.takeWhile isWs, isWs d = true :=
        fun d hd => List.mem_takeWhile_imp hd
      have hspne : b.takeWhile isWs ≠ [] := by rw [hsp]; simp
      obtain ⟨s2, ca, hseq, hcamem⟩ := exists_last _ hspne
      have hcaws : isWs ca = true := hspws ca hcamem
      have hy : y = ((a ++ s2) ++ [ca]) ++ ['s'] ++ t2 := by
        rw [← hab]
        have hb2 : b = b.takeWhile isWs ++ ('s' :: t2) := by
          rw [← hdrop, List.takeWhile_append_dropWhile]
        rw [hb2, hseq]
        simp
      have hsub : ∀ d ∈ t2, d ∈ y := by
        intro d hd
        rw [hy]
        exact List.mem_append_right _ hd
      have hrcond : t2 = [] ∨ ∃ c2 t3, t2 = c2 :: t3 ∧ isWordC c2 = false := by
        cases t2 with
        | nil => exact Or.inl rfl
        | cons r r2 =>
          right
          refine ⟨r, r2, rfl, ?_⟩
          unfold rightBoundary at hrb
          have hs : isWordC 's' = true := by decide
          rw [hs] at hrb
          dsimp only at hrb
          cases hr : isWordC r
          · rfl
          · rw [hr] at hrb
            simp at hrb
      have hbcond := nonword_suffix_cond y hchars t2 hsub hrcond
      have hmem : ['s'] ∈ splitWs y := by
        unfold splitWs
        rw [hy]
        exact word_mem_splitWs ((a ++ s2) ++ [ca]) ['s'] t2 []
          (Or.inr ⟨a ++ s2, ca, rfl, hcaws⟩) (fun _ => rfl)
          (by simp) (by intro d hd; rw [List.mem_singleton] at hd; rw [hd]; decide)
          hbcond
      exact hnw ['s'] hmem rfl

/-- A compound-word pass is the identity on well-formed strings that avoid its
first word. -/
theorem compoundScan_id (w1 w2 repl : List Char) (y : List Char)
    (hw1 : w1 ≠ []) (h1 : ∀ c ∈ w1, isWs c = false)
    (hchars : ∀ c ∈ y, c ∈ wfChars)
    (hnw : ∀ v ∈ splitWs y, v ≠ w1) :
    replaceScan (compoundMatch w1 w2 repl) y = y := by
  apply replaceScan_id
  intro a b hab hbne
  cases hm : compoundMatch w1 w2 repl a.getLast? b with
  | none => rfl
  | some p =>
    exfalso
    obtain ⟨hlo, sep, rest3, hb, hsep, -⟩ := compoundMatch_some w1 w2 repl _ b p hm
    have hsepws : isWs sep = true := by
      rcases hsep with h | h
      · exact h
      · exfalso
        have hsmem : sep ∈ y := by
          rw [← hab, hb]
          exact List.mem_append_right a (List.mem_append_right w1 (List.mem_cons_self _ _))
        have hsw := hchars sep hsmem
        rw [h] at hsw
        exact wfChars_not_hyphen '-' hsw rfl
    have hy : y = a ++ w1 ++ (sep :: rest3) := by
      rw [← hab, hb, List.append_assoc]
    have hmem : w1 ∈ splitWs y := by
      unfold splitWs
      rw [hy]
      exact word_mem_splitWs a w1 (sep :: rest3) []
        (left_prefix_ws y a b hab hchars hlo) (fun _ => rfl) hw1 h1
        (Or.inr ⟨sep, rest3, rfl, hsepws⟩)
    exact hnw w1 hmem rfl

/-- A roman-numeral word pass is the identity on well-formed strings that
avoid that word. -/
theorem romanScan_id (w repl : List Char) (y : List Char)
    (hw : w ≠ []) (hwc : ∀ c ∈ w, isWordC c = true ∧ toLowerC c = c ∧ isWs c = false)
    (hchars : ∀ c ∈ y, c ∈ wfChars)
    (hnw : ∀ v ∈ splitWs y, v ≠ w) :
    replaceScan (romanWordMatch w repl) y = y := by
  apply replaceScan_id
  intro a b hab hbne
  cases hm : romanWordMatch w repl a.getLast? b with
  | none => rfl
  | some p =>
    exfalso
    obtain ⟨hlo, r, hr, hrc⟩ := romanWordMatch_some w repl _ b p hm
    have hblow : ∀ c ∈ b, toLowerC c = c := by
      intro c hc
      exact wfChars_toLower c (hchars c (by rw [← hab]; exact List.mem_append_right a hc))
    have hb : b = w ++ r :=
      stripLitCI_eq_append w b r hblow (fun q hq => (hwc q hq).2.1) hr
    have hy : y = a ++ w ++ r := by rw [← hab, hb, List.append_assoc]
    have hsub : ∀ c ∈ r, c ∈ y := by
      intro c hc
      rw [hy]
      exact List.mem_append_right _ hc
    have hbcond := nonword_suffix_cond y hchars r hsub hrc
    have hmem : w ∈ splitWs y := by
      unfold splitWs
      rw [hy]
      exact word_mem_splitWs a w r [] (left_prefix_ws y a b hab hchars hlo)
        (fun _ => rfl) hw (fun c hc => (hwc c hc).2.2) hbcond
    exact hnw w hmem rfl

/-- A space-delimited substring pass (the word-number table) is the identity
on strings that avoid the enclosed word. -/
theorem substWordScan_id (wd repl : List Char) (y : List Char)
    (hwd : wd ≠ []) (hwdns : ∀ c ∈ wd, isWs c = false)
    (hnw : ∀ v ∈ splitWs y, v ≠ wd) :
    replaceScan (substMatch (' ' :: (wd ++ [' '])) repl) y = y := by
  apply replaceScan_id
  intro a b hab hbne
  cases hm : substMatch (' ' :: (wd ++ [' '])) repl a.getLast? b with
  | none => rfl
  | some p =>
    exfalso
    obtain ⟨r, hb⟩ := substMatch_some _ repl _ b p hm
    have hy : y = (a ++ [' ']) ++ wd ++ (' ' :: r) := by
      rw [← hab, hb]
      simp
    have hmem : wd ∈ splitWs y := by
      unfold splitWs
      rw [hy]
      exact word_mem_splitWs (a ++ [' ']) wd (' ' :: r) []
        (Or.inr ⟨a, ' ', rfl, by decide⟩) (fun _ => rfl)
        hwd hwdns (Or.inr ⟨' ', r, rfl, by decide⟩)
    exact hnw wd hmem rfl

/-- Folding passes that each fix `z` fixes `z`. -/
theorem foldl_fix {β : Type} (g : List Char → β → List Char) :
    ∀ (table : List β) (z : List Char), (∀ p ∈ table, g z p = z) →
    table.foldl g z = z := by
  intro table
  induction table with
  | nil => intro z _; rfl
  | cons p t ih =>
    intro z h
    rw [List.foldl_cons, h p (List.mem_cons_self p t)]
    exact ih z (fun q hq => h q (List.mem_cons_of_mem p hq))

/-- Character facts about the roman-numeral table entries: non-empty lowercase
words that are all banned. -/
theorem romanTable_facts : ∀ p ∈ romanTable, p.1 ≠ [] ∧
    (∀ c ∈ p.1, isWordC c = true ∧ toLowerC c = c ∧ isWs c = false) ∧
    badWords.contains (String.mk p.1) = true := by
  have h : romanTable.all (fun p => !p.1.isEmpty &&
      p.1.all (fun c => isWordC c && (toLowerC c == c) && !isWs c) &&
      badWords.contains (String.mk p.1)) = true := by decide
  intro p hp
  have h2 := List.all_eq_true.mp h p hp
  simp only [Bool.and_eq_true] at h2
  obtain ⟨⟨hne, hall⟩, hbad⟩ := h2
  refine ⟨?_, ?_, hbad⟩
  · intro hcontra
    rw [hcontra] at hne
    simp at hne
  · intro c hc
    have h3 := List.all_eq_true.mp hall c hc
    simp only [Bool.and_eq_true] at h3
    obtain ⟨⟨hw, hlow⟩, hnws⟩ := h3
    exact ⟨hw, eq_of_beq hlow, by simpa using hnws⟩

/-- Shape facts about the word-number table entries: each pattern is a banned
word surrounded by single spaces. -/
theorem wordNumTable_facts : ∀ p ∈ wordNumTable,
    ∃ wd, p.1 = ' ' :: (wd ++ [' ']) ∧ wd ≠ [] ∧ (∀ c ∈ wd, isWs c = false) ∧
      badWords.contains (String.mk wd) = true := by
  have h : wordNumTable.all (fun p =>
      (p.1 == ' ' :: (((p.1.drop 1).dropLast) ++ [' '])) &&
      !((p.1.drop 1).dropLast).isEmpty &&
      ((p.1.drop 1).dropLast).all (fun c => !isWs c) &&
      badWords.contains (String.mk ((p.1.drop 1).dropLast))) = true := by decide
  intro p hp
  have h2 := List.all_eq_true.mp h p hp
  simp only [Bool.and_eq_true] at h2
  obtain ⟨⟨⟨heq, hne⟩, hall⟩, hbad⟩ := h2
  refine ⟨(p.1.drop 1).dropLast, eq_of_beq heq, ?_, ?_, hbad⟩
  · intro hc
    rw [hc] at hne
    simp at hne
  · intro c hc
    simpa using List.all_eq_true.mp hall c hc

/-- Lowercasing fixes strings over the well-formed inventory. -/
theorem map_toLowerC_id (l : List Char) (h : ∀ c ∈ l, c ∈ wfChars) :
    l.map toLowerC = l := by
  induction l with
  | nil => rfl
  | cons c t ih =>
    rw [List.map_cons, wfChars_toLower c (h c (List.mem_cons_self c t)),
      ih (fun d hd => h d (List.mem_cons_of_mem c hd))]

/-- The stop words are all banned words. -/
theorem stopWords_sub_badWords : ∀ s ∈ stopWords, s ∈ badWords := by
  intro s hs
  unfold badWords
  exact List.mem_append_left _ (List.mem_append_left _ (List.mem_append_left _ hs))

/-- The join of a list headed by a non-empty word is non-empty. -/
theorem joinWords_ne_nil (w : List Char) (rest : List (List Char)) (hw : w ≠ []) :
    joinWords (w :: rest) ≠ [] := by
  cases rest with
  | nil => simpa [joinWords] using hw
  | cons r rest2 =>
    show w ++ ' ' :: joinWords (r :: rest2) ≠ []
    intro hcontra
    exact hw (List.append_eq_nil.mp hcontra).1

/-- The join of non-empty whitespace-free words is empty or starts with a
non-whitespace character. -/
theorem joinWords_head (ws : List (List Char))
    (hws : ∀ w ∈ ws, w ≠ [] ∧ ∀ c ∈ w, isWs c = false) :
    joinWords ws = [] ∨ ∃ c t, joinWords ws = c :: t ∧ isWs c = false := by
  cases ws with
  | nil => exact Or.inl rfl
  | cons w rest =>
    right
    obtain ⟨hwne, hwc⟩ := hws w (List.mem_cons_self w rest)
    cases hw : w with
    | nil => exact absurd hw hwne
    | cons c w2 =>
      have hc : isWs c = false := hwc c (by rw [hw]; exact List.mem_cons_self _ _)
      cases rest with
      | nil => exact ⟨c, w2, rfl, hc⟩
      | cons r rest2 =>
        refine ⟨c, w2 ++ ' ' :: joinWords (r :: rest2), ?_, hc⟩
        show (c :: w2) ++ ' ' :: joinWords (r :: rest2)
          = c :: (w2 ++ ' ' :: joinWords (r :: rest2))
        rw [List.cons_append]

/-- The join of non-empty whitespace-free words is empty or ends with a
non-whitespace character. -/
theorem joinWords_last : ∀ (ws : List (List Char)),
    (∀ w ∈ ws, w ≠ [] ∧ ∀ c ∈ w, isWs c = false) →
    joinWords ws = [] ∨ ∃ c t, (joinWords ws).reverse = c :: t ∧ isWs c = false := by
  intro ws
  induction ws with
  | nil => intro _; exact Or.inl rfl
  | cons w rest ih =>
    intro hws
    right
    obtain ⟨hwne, hwc⟩ := hws w (List.mem_cons_self w rest)
    cases rest with
    | nil =>
      have hrevne : w.reverse ≠ [] := by simpa using hwne
      obtain ⟨c, t, hct⟩ := List.exists_cons_of_ne_nil hrevne
      refine ⟨c, t, hct, ?_⟩
      refine hwc c (List.mem_reverse.mp ?_)
      rw [hct]
      exact List.mem_cons_self _ _
    | cons r rest2 =>
      have hih := ih (fun v hv => hws v (List.mem_cons_of_mem w hv))
      have hJne : joinWords (r :: rest2) ≠ [] :=
        joinWords_ne_nil r rest2 (hws r (by simp)).1
      rcases hih with hnil | ⟨c, t, hct, hc⟩
      · exact absurd hnil hJne
      · refine ⟨c, t ++ [' '] ++ w.reverse, ?_, hc⟩
        show (w ++ ' ' :: joinWords (r :: rest2)).reverse
          = c :: (t ++ [' '] ++ w.reverse)
        rw [List.reverse_append, List.reverse_cons, hct]
        simp

/-- Trimming fixes the join of non-empty whitespace-free words. -/
theorem trimC_joinWords (ws : List (List Char))
    (hws : ∀ w ∈ ws, w ≠ [] ∧ ∀ c ∈ w, isWs c = false) :
    trimC (joinWords ws) = joinWords ws := by
  unfold trimC
  rcases joinWords_head ws hws with hnil | ⟨c, t, hj, hc⟩
  · rw [hnil]; rfl
  · have h1 : (joinWords ws).dropWhile isWs = joinWords ws := by
      rw [hj, List.dropWhile_cons, if_neg (by simp [hc])]
    rw [h1]
    rcases joinWords_last ws hws with hnil | ⟨c2, t2, hj2, hc2⟩
    · rw [hnil]; rfl
    · rw [hj2, List.dropWhile_cons, if_neg (by simp [hc2]), ← hj2, List.reverse_reverse]

/-- Every well-formed string is a fixed point of the normalizer: each pass of
`TitleNormalizer::normalize` either never fires on it or (the number-spacing
pass) only reshuffles whitespace that the final split-join canonicalizes
away. -/
theorem normalizeL_fixed (y : List Char) (h : WellFormedL y = true) :
    normalizeL y = y := by
  unfold WellFormedL at h
  simp only [Bool.and_eq_true] at h
  obtain ⟨⟨⟨⟨⟨⟨hA, hB⟩, hC⟩, hD⟩, hE⟩, hF⟩, hG⟩ := h
  have hchars : ∀ c ∈ y, c ∈ wfChars := by
    intro c hc
    simpa using List.all_eq_true.mp hA c hc
  have hjoin : y = joinWords (splitWs y) := of_decide_eq_true hB
  have h4 : hasFourDigits y = false := by simpa using hC
  have hiso : digitsIsolated y = true := hD
  have hwords : ∀ v ∈ splitWs y, badWords.contains (String.mk v) = false := by
    intro v hv
    simpa using List.all_eq_true.mp hE v hv
  have hea : containsSub ("early access").data y = false := by simpa using hF
  have hnw : ∀ (wd : List Char), badWords.contains (String.mk wd) = true →
      ∀ v ∈ splitWs y, v ≠ wd := by
    intro wd hbad v hv hveq
    subst hveq
    rw [hwords v hv] at hbad
    cases hbad
  have hparen : ∀ (lit : List Char), '(' ∈ lit → containsSub lit y = false := by
    intro lit hpl
    cases hcs : containsSub lit y
    · rfl
    · exfalso
      have hin := mem_of_containsSub y lit hcs '(' hpl
      have h1 := hchars '(' hin
      have h2 : '(' ∉ wfChars := by decide
      exact h2 h1
  have hzchars : ∀ c ∈ replaceScan numberSpaceMatch y, c ∈ wfChars := by
    intro c hc
    rcases ns_chars y.length y none c hc with hmem | rfl
    · exact hchars c hmem
    · exact space_mem_wfChars
  have hzsplit : splitWs (replaceScan numberSpaceMatch y) = splitWs y :=
    ns_splitWsAux y.length y none [] (Nat.le_refl _) hchars hiso (fun _ _ _ _ => rfl)
  have hnwz : ∀ (wd : List Char), badWords.contains (String.mk wd) = true →
      ∀ v ∈ splitWs (replaceScan numberSpaceMatch y), v ≠ wd := by
    intro wd hbad v hv
    rw [hzsplit] at hv
    exact hnw wd hbad v hv
  have e0 : y.map toLowerC = y := map_toLowerC_id y hchars
  have e1 : replaceScan yearMatch y = y := yearScan_id y hchars h4
  have e3 : statusLits.foldl (fun s lit => replaceScan (statusMatch lit) s) y = y := by
    apply foldl_fix
    intro lit hlit
    have hcase : lit = ("(early access)").data ∨ lit = ("early access").data ∨
        lit = ("(full release)").data := by
      simpa [statusLits] using hlit
    have hcs : containsSub lit y = false := by
      rcases hcase with rfl | rfl | rfl
      · exact hparen _ (by decide)
      · exact hea
      · exact hparen _ (by decide)
    exact statusScan_id lit y hcs
  have e4 : replaceScan possessiveMatch y = y :=
    possessiveScan_id y hchars (hnw ['s'] (by decide))
  have e5 : y.filter (fun c => isWordC c || isWs c || c == '-') = y :=
    List.filter_eq_self.mpr (fun c hc => wfChars_punct1 c (hchars c hc))
  have e7 : replaceScan
      (compoundMatch ("half").data ("life").data ("halflife").data)
      (replaceScan numberSpaceMatch y) = replaceScan numberSpaceMatch y :=
    compoundScan_id _ _ _ _ (by decide) (by decide) hzchars (hnwz _ (by decide))
  have e7b : replaceScan
      (compoundMatch ("counter").data ("strike").data ("counterstrike").data)
      (replaceScan numberSpaceMatch y) = replaceScan numberSpaceMatch y :=
    compoundScan_id _ _ _ _ (by decide) (by decide) hzchars (hnwz _ (by decide))
  have e8 : romanTable.foldl (fun s p => replaceScan (romanWordMatch p.1 p.2) s)
      (replaceScan numberSpaceMatch y) = replaceScan numberSpaceMatch y := by
    apply foldl_fix
    intro p hp
    obtain ⟨hne, hwc, hbad⟩ := romanTable_facts p hp
    exact romanScan_id p.1 p.2 _ hne hwc hzchars (hnwz p.1 hbad)
  have e9 : wordNumTable.foldl (fun s p => replaceScan (substMatch p.1 p.2) s)
      (replaceScan numberSpaceMatch y) = replaceScan numberSpaceMatch y := by
    apply foldl_fix
    intro p hp
    obtain ⟨wd, hpat, hne, hws2, hbad⟩ := wordNumTable_facts p hp
    rw [hpat]
    exact substWordScan_id wd p.2 _ hne hws2 (hnwz wd hbad)
  have e10 : (replaceScan numberSpaceMatch y).filter (fun c => isWordC c || isWs c)
      = replaceScan numberSpaceMatch y :=
    List.filter_eq_self.mpr (fun c hc => wfChars_punct2 c (hzchars c hc))
  have e11 : (splitWs (replaceScan numberSpaceMatch y)).filter
      (fun w => !(stopWords.contains (String.mk (w.map toLowerC))))
      = splitWs (replaceScan numberSpaceMatch y) := by
    apply List.filter_eq_self.mpr
    intro w hw
    rw [hzsplit] at hw
    have hwchars : ∀ c ∈ w, c ∈ wfChars := by
      intro c hc
      rcases splitWsAux_chars y [] w hw c hc with hmem | hmem
      · exact hchars c hmem
      · cases hmem
    rw [map_toLowerC_id w hwchars]
    cases hsc : stopWords.contains (String.mk w)
    · rfl
    · exfalso
      have hmem : String.mk w ∈ stopWords := by simpa using hsc
      have hmem2 : String.mk w ∈ badWords := stopWords_sub_badWords _ hmem
      have hct : badWords.contains (String.mk w) = true := by simpa using hmem2
      rw [hwords w hw] at hct
      cases hct
  unfold normalizeL
  dsimp only
  rw [e0, e1, e0, e3, e4, e5, e7, e7b, e8, e9, e10, e11, hzsplit]
  unfold nfkd
  rw [trimC_joinWords _ (splitWs_words y), ← hjoin]

/-- C2 (amended): the normalizer is not idempotent on all strings, but it is
idempotent on every input whose first normalization lands in the well-formed
fragment (single-space-separated lowercase alphanumeric words, no four
consecutive digits, digit runs not glued to letters, no stop/roman/number/
possessive/compound trigger word and no status phrase) — which is the typical
shape of a normalized game title. -/
theorem claim_c2 (s : String) (h : WellFormedL (normalize s).data = true) :
    normalize (normalize s) = normalize s := by
  have hfix : normalizeL (normalize s).data = (normalize s).data :=
    normalizeL_fixed _ h
  show String.mk (normalizeL (normalize s).data) = normalize s
  rw [hfix]

set_option maxRecDepth 8000 in
/-- C2 witness: the title "halflife 2" normalizes to a well-formed string, and
the theorem instantiated there yields idempotence at that input. -/
theorem claim_c2_witness :
    WellFormedL (normalize "halflife 2").data = true ∧
    normalize (normalize "halflife 2") = normalize "halflife 2" :=
  ⟨by decide, claim_c2 "halflife 2" (by decide)⟩

set_option maxRecDepth 8000 in
/-- C2 counterexample: `normalize` is not idempotent.  "a-x" normalizes to
"a10" (the roman-numeral x becomes 10 and the hyphen is dropped by the final
punctuation filter, gluing the digits to the letter), but a second pass
spaces the number out to "a 10". -/
theorem claim_c2_counterexample :
    normalize "a-x" = "a10" ∧ normalize (normalize "a-x") = "a 10" ∧
    normalize (normalize "a-x") ≠ normalize "a-x" :=
  ⟨by decide, by decide, by decide⟩

end Gameharmony
